import Mathlib

/-!
Faunus: interaction engine, containers and work splitting.

A shallow embedding of `interaction<T>` and `int_hydrophobic<T>`
(src/include/faunus/energy.h), of the simulation containers
(src/classes/container.h), of `splitEven` (src/include/faunus/mpi.h) and of
the Debye-Hückel core potential (src/src/potentials.cpp), together with the
properties of their results.

Conventions of the embedding
* `double` and `float` are the exact field `ℚ`: unless a statement says
  otherwise it is a statement in exact arithmetic. Where rounding decides a
  property, `binary64` rounds a rational to the nearest IEEE 754 double and the
  function has a second version that rounds every result. The square root of
  `<cmath>` is not a rational function and is a parameter `sqrt` wherever the
  code calls it; the Debye-Hückel constructor is written over any ordered field
  and is stated over the reals with `Real.sqrt`.
* `int` loop counters and group bounds are `Int`; the counters never leave
  the interval `[-1, p.size()]`, which is taken to be representable. The
  conversion `int(double)` is checked against the range of `int`, `push_back`
  into a `vector<unsigned short>` reduces modulo 65536, and the arithmetic of
  `splitEven` is 32-bit (`wrap_int`).
* `vector<particle>` is `List particle`; `p[i]` outside `0 .. p.size()-1` is
  undefined behaviour in C++ and is a failure (`none`) here, as is the read of
  a local that was never assigned, so the functions that index return an
  `Option`.
* `omp parallel for reduction (+:u)`: where every variable written in the loop
  is private (`energy(p)`, `energy(p, i)`, `hyenergy(p)`) the region is, in
  exact arithmetic, the loop in program order. `energy(p, g)` and
  `energy(p, g1, g2)` declare the inner counter `j` before the pragma, so the
  threads share it: `energy_group` and `energy_group_group` are the execution by
  one thread, `energy_group_omp` and `energy_group_group_omp` the execution by
  the team of two threads.
-/

namespace Faunus

/-- Modelled from the spec: the particle value type (point.h and the particle
declaration are not among the sources): a position, a charge, a species id
and a hydrophobic flag. -/
structure particle where
  x : ℚ
  y : ℚ
  z : ℚ
  charge : ℚ
  id : Nat
  hydrophobic : Bool
  deriving DecidableEq, Inhabited

/-- Modelled from the spec: the group (group.h is not among the sources), the
inclusive index bounds `beg`, `end` of a contiguous range of the particle
vector; `beg = -1` is the empty group. -/
structure group where
  beg : Int
  end_ : Int
  deriving DecidableEq, Inhabited

/-- Modelled from the spec: `group::find` (group.h is not among the sources),
the membership test `contains(index)` of the inclusive range. -/
def group.find (g : group) (i : Int) : Bool :=
  decide (g.beg ≤ i ∧ i ≤ g.end_)

/-- The template parameter `T` of `interaction<T>`, as far as the engine uses
it: the scale factor `f` and the reduced pair energy `pairpot(a, b)`. -/
structure pairpotential where
  f : ℚ
  pairpot : particle → particle → ℚ

/-- The read `p[i]` of a `vector<particle>` with an `int` index. -/
def index (p : List particle) (i : Int) : Option particle :=
  if 0 ≤ i then p[i.toNat]? else none

/-- Runs `n` iterations of a loop body, the counter starting at `i` and going
up by one, threading the accumulator `u`. -/
def iterate {σ : Type} (body : Int → σ → Option σ) : Nat → Int → σ → Option σ
  | 0, _, u => some u
  | n + 1, i, u => (body i u).bind (iterate body n (i + 1))

/-- The loop `for (i = a; i < b; i++) body`, which runs `b - a` times when
`a < b` and not at all otherwise. -/
def forLoop {σ : Type} (a b : Int) (body : Int → σ → Option σ) (u : σ) : Option σ :=
  iterate body (b - a).toNat a u

/-- The statement `u += pair.pairpot(p[i], p[j])`. -/
def addpot (pair : pairpotential) (p : List particle) (i j : Int) (u : ℚ) : Option ℚ := do
  let a ← index p i
  let b ← index p j
  pure (u + pair.pairpot a b)

namespace interaction

/-- `interaction<T>::energy(const vector<particle>&, int)`: all against particle `j`. -/
def energy_int (pair : pairpotential) (p : List particle) (j : Int) : Option ℚ := do
  let ps : Int := p.length
  let u ← forLoop 0 j (fun i u => addpot pair p i j u) 0
  let u ← forLoop (j + 1) ps (fun i u => addpot pair p i j u) u
  pure (pair.f * u)

/-- `interaction<T>::energy(const vector<particle>&, const group&)`, all against a
group, executed by one thread: the loops in program order, as in a build without
OpenMP. The execution by two threads, which share `j`, is `energy_group_omp`. -/
def energy_group (pair : pairpotential) (p : List particle) (g : group) : Option ℚ := do
  let n : Int := g.end_ + 1
  let psize : Int := p.length
  let u ← forLoop g.beg n (fun i u => do
    let u ← forLoop 0 g.beg (fun j u => addpot pair p i j u) u
    forLoop n psize (fun j u => addpot pair p i j u) u) 0
  pure (pair.f * u)

/-- `interaction<T>::energy(const vector<particle>&, const group&, int)`: a group
against particle `j`. -/
def energy_group_int (pair : pairpotential) (p : List particle) (g : group) (j : Int) :
    Option ℚ := do
  let len : Int := g.end_ + 1
  let u ←
    if g.find j = true then do
      let u ← forLoop g.beg j (fun i u => addpot pair p i j u) 0
      forLoop (j + 1) len (fun i u => addpot pair p i j u) u
    else
      forLoop g.beg len (fun i u => addpot pair p i j u) 0
  pure (pair.f * u)

/-- `interaction<T>::energy(const vector<particle>&, const group&, const particle&)`:
a group against an external particle `a`. -/
def energy_group_particle (pair : pairpotential) (p : List particle) (g : group)
    (a : particle) : Option ℚ :=
  if g.beg = -1 then some 0 else do
    let n : Int := g.end_ + 1
    let u ← forLoop g.beg n (fun i u => do
      let b ← index p i
      pure (u + pair.pairpot a b)) 0
    pure (pair.f * u)

/-- `interaction<T>::energy(const vector<particle>&)`: the system energy. -/
def energy (pair : pairpotential) (p : List particle) : Option ℚ := do
  let n : Int := p.length
  let u ← forLoop 0 (n - 1) (fun i u =>
    forLoop (i + 1) n (fun j u => addpot pair p i j u) u) 0
  pure (pair.f * u)

/-- `interaction<T>::energy(const vector<particle>&, const group&, const group&)`,
group against group, executed by one thread: the loops in program order, as in a build
without OpenMP. The execution by two threads, which share `j`, is
`energy_group_group_omp`. -/
def energy_group_group (pair : pairpotential) (p : List particle) (g1 g2 : group) :
    Option ℚ := do
  let ilen : Int := g1.end_ + 1
  let jlen : Int := g2.end_ + 1
  let u ← forLoop g1.beg ilen (fun i u =>
    forLoop g2.beg jlen (fun j u => addpot pair p i j u) u) 0
  pure (pair.f * u)

/-- `interaction<T>::internal`: the energy inside a group. -/
def internal (pair : pairpotential) (p : List particle) (g : group) : Option ℚ :=
  if g.beg = -1 then some 0 else do
    let glen : Int := g.end_ + 1
    let u ← forLoop g.beg (glen - 1) (fun i u =>
      forLoop (i + 1) glen (fun j u => addpot pair p i j u) u) 0
    pure (pair.f * u)

/-- `interaction<T>::energy(const vector<particle>&, const particle&)`: all
against an external particle `a`. -/
def energy_particle (pair : pairpotential) (p : List particle) (a : particle) : Option ℚ := do
  let n : Int := p.length
  let u ← forLoop 0 n (fun i u => do
    let b ← index p i
    pure (u + pair.pairpot b a)) 0
  pure (pair.f * u)

end interaction

/-- The particle `p[i]` as a total function, for writing the sums the engine
is compared with; it is only ever used at indices inside the vector. -/
def pat (p : List particle) (i : Int) : particle :=
  (index p i).getD default

/-- A particle at the origin carrying the charge `q`, for concrete evaluations. -/
def ion (q : ℚ) : particle :=
  ⟨0, 0, 0, q, 0, false⟩

/-- A symmetric pair potential for concrete evaluations: the product of the two
charges, with scale factor 2. -/
def chargeProduct : pairpotential :=
  ⟨2, fun a b => a.charge * b.charge⟩

/-- Three particles with charges 1, 2 and 3, for concrete evaluations. -/
def threeIons : List particle :=
  [ion 1, ion 2, ion 3]
/-! ## Containers (src/classes/container.h) -/

/-- Modelled from the spec: the point value type (point.h is not among the
sources), a 3-D coordinate. -/
structure point where
  x : ℚ
  y : ℚ
  z : ℚ
  deriving DecidableEq, Inhabited

/-- Whether an integer is a value of the 32-bit type `int`. -/
def fits_int (n : Int) : Bool :=
  decide (-2147483648 ≤ n ∧ n ≤ 2147483647)

/-- The conversion `int(t)` of a `double`: the fractional part is discarded
(truncation toward zero); when the truncated number is not a value of `int`
the conversion is undefined and there is no result. -/
def int_cast (t : ℚ) : Option Int :=
  if fits_int (t.num.tdiv t.den) = true then some (t.num.tdiv t.den) else none

/-- The spherical cell, as far as `collision` reads it: the squared radius. -/
structure cell where
  r2 : ℚ

/-- `cell::collision`. -/
def cell.collision (c : cell) (p : point) : Bool :=
  if p.x * p.x + p.y * p.y + p.z * p.z > c.r2 then true else false

/-- The periodic cube: the side length and its two caches. -/
structure box where
  len_half : ℚ
  len_inv : ℚ
  len : ℚ

/-- `box::collision`. -/
def box.collision (b : box) (p : point) : Bool :=
  if |p.x| > b.len_half ∨ |p.y| > b.len_half ∨ |p.z| > b.len_half then true else false

/-- `box::anint`: `int(x > 0 ? x + .5 : x - .5)`. -/
def box.anint (x : ℚ) : Option Int :=
  int_cast (if x > 0 then x + 1 / 2 else x - 1 / 2)

/-- `box::boundary`: the three assignments to `p.x`, `p.y`, `p.z`. -/
def box.boundary (b : box) (p : point) : Option point := do
  let nx ← box.anint (p.x * b.len_inv)
  let px : ℚ := p.x - b.len * nx
  let ny ← box.anint (p.y * b.len_inv)
  let py : ℚ := p.y - b.len * ny
  let nz ← box.anint (p.z * b.len_inv)
  let pz : ℚ := p.z - b.len * nz
  pure ⟨px, py, pz⟩

/-- Rounding of a rational to the nearest integer, a tie going to the even one. -/
def round_even (x : ℚ) : Int :=
  if x - ⌊x⌋ < 1 / 2 then ⌊x⌋
  else if x - ⌊x⌋ > 1 / 2 then ⌊x⌋ + 1
  else if ⌊x⌋ % 2 = 0 then ⌊x⌋ else ⌊x⌋ + 1

/-- For `n ≥ 1` and `fuel ≥ n`, the position of the leading binary digit of `n`. -/
def leading_bit : Nat → Nat → Nat
  | 0, _ => 0
  | fuel + 1, n => if n < 2 then 0 else leading_bit fuel (n / 2) + 1

/-- For `x ≠ 0`, the binary exponent `e` with `2^e ≤ |x| < 2^(e+1)`. -/
def binary_exponent (x : ℚ) : Int :=
  if (2 : ℚ) ^ ((leading_bit x.num.natAbs x.num.natAbs : Int) - (leading_bit x.den x.den : Int))
      ≤ |x|
  then (leading_bit x.num.natAbs x.num.natAbs : Int) - (leading_bit x.den x.den : Int)
  else (leading_bit x.num.natAbs x.num.natAbs : Int) - (leading_bit x.den x.den : Int) - 1

/-- The IEEE 754 double nearest to `x`: 53 significant binary digits, round to
nearest, ties to even. The exponent range is not modelled (no overflow, no
subnormal numbers); it is used on magnitudes between `2^-1022` and `2^1023`. -/
def binary64 (x : ℚ) : ℚ :=
  if x = 0 then 0
  else round_even (x / (2 : ℚ) ^ (binary_exponent x - 52)) * (2 : ℚ) ^ (binary_exponent x - 52)

/-- `box::anint` in double arithmetic: the sum `x + .5` or `x - .5` is rounded to a
double before the conversion to `int`. -/
def box.anint_binary64 (x : ℚ) : Option Int :=
  int_cast (if x > 0 then binary64 (x + 1 / 2) else binary64 (x - 1 / 2))

/-- `box::boundary` in double arithmetic: every product and every difference is
rounded to a double. -/
def box.boundary_binary64 (b : box) (p : point) : Option point := do
  let nx ← box.anint_binary64 (binary64 (p.x * b.len_inv))
  let px : ℚ := binary64 (p.x - binary64 (b.len * nx))
  let ny ← box.anint_binary64 (binary64 (p.y * b.len_inv))
  let py : ℚ := binary64 (p.y - binary64 (b.len * ny))
  let nz ← box.anint_binary64 (binary64 (p.z * b.len_inv))
  let pz : ℚ := binary64 (p.z - binary64 (b.len * nz))
  pure ⟨px, py, pz⟩

/-- A periodic cube of side 50 in double arithmetic: `len_half = 25` and `len_inv`
the double nearest to `1/50`. -/
def cubeOfSideFifty : box :=
  ⟨25, binary64 (1 / 50), 50⟩

/-- The point `(25 - 2^-48, 0, 0)`, just inside the face `x = 25`. -/
def nearFace : point :=
  ⟨25 - 1 / 281474976710656, 0, 0⟩

/-- The clutch cell, as far as `collision` reads it. -/
structure clutch where
  r2 : ℚ
  zmin : ℚ
  zmax : ℚ

/-- `clutch::collision`. -/
def clutch.collision (c : clutch) (p : point) : Bool :=
  if p.z < c.zmax ∧ p.z > c.zmin then true
  else if p.x * p.x + p.y * p.y + p.z * p.z > c.r2 then true
  else false

/-- The cylinder, as far as `collision` reads it. -/
structure cylinder where
  len : ℚ
  r2 : ℚ

/-- `cylinder::collision`. -/
def cylinder.collision (c : cylinder) (p : point) : Bool :=
  if p.x * p.x + p.y * p.y > c.r2 ∨ (p.z < 0 ∨ p.z > c.len) then true else false

/-- Round half away from zero as the spec words it:
`x > 0 ? floor(x + 0.5) : ceil(x - 0.5)`. -/
def round_half_away (x : ℚ) : Int :=
  if x > 0 then ⌊x + 1 / 2⌋ else ⌈x - 1 / 2⌉

/-- The cell centre. -/
def origin : point :=
  ⟨0, 0, 0⟩

/-- A periodic cube of side 2 (`len_half = 1`, `len_inv = 1/2`), for concrete
evaluations. -/
def cubeOfSideTwo : box :=
  ⟨1, 1 / 2, 2⟩

/-! ## Work splitting (src/include/faunus/mpi.h) -/

/-- The value a 32-bit `int` holds after an arithmetic result `n`: `n` itself when
it is representable, and otherwise `n` reduced modulo `2^32` into the range
`[-2^31, 2^31)`. -/
def wrap_int (n : Int) : Int :=
  (n + 2147483648) % 4294967296 - 2147483648

namespace MPI

/-- `Faunus::MPI::splitEven` at the default template type `T = int`, with
`nproc = mpi.nproc()` and `rank = mpi.rank()`. Every product, sum and
difference is a 32-bit `int`; `/` truncates toward zero. -/
def splitEven (nproc rank N : Int) : Int × Int :=
  let M : Int := nproc
  let i : Int := rank
  let beg : Int := (wrap_int (N * i)).tdiv M
  let end_ : Int := wrap_int ((wrap_int (wrap_int (N * i) + N)).tdiv M - 1)
  (beg, end_)

end MPI

/-! ## Electrostatic potential and the hydrophobic extension
(src/include/faunus/energy.h) -/

/-- The position of a particle; in the source `particle` derives from `point`. -/
def particle.pos (a : particle) : point :=
  ⟨a.x, a.y, a.z⟩

/-- Modelled from the spec: `point::sqdist` (point.h is not among the sources),
the plain Euclidean squared distance. -/
def point.sqdist (a b : point) : ℚ :=
  (a.x - b.x) * (a.x - b.x) + (a.y - b.y) * (a.y - b.y) + (a.z - b.z) * (a.z - b.z)

/-- Modelled from the spec: `point::dist` (point.h is not among the sources),
the plain Euclidean distance. The square root of `<cmath>` is not a rational
function; it is the parameter `sqrt`. -/
def point.dist (sqrt : ℚ → ℚ) (a b : point) : ℚ :=
  sqrt (a.sqdist b)

/-- The read `v[i]` of a `vector<unsigned short>` with an `int` index. -/
def index_us (v : List Nat) (i : Int) : Option Nat :=
  if 0 ≤ i then v[i.toNat]? else none

namespace interaction

/-- `interaction<T>::pot`: the electrostatic potential in a point. -/
def pot (sqrt : ℚ → ℚ) (pair : pairpotential) (p : List particle) (a : point) : Option ℚ := do
  let n : Int := p.length
  let u ← forLoop 0 n (fun i u => do
    let b ← index p i
    pure (u + b.charge / b.pos.dist sqrt a)) (0 : ℚ)
  pure (pair.f * u)

/-- `interaction<T>::potential`: the electric potential at the `j`'th particle
(`j` is an `unsigned short`). The function is a member of `interaction<T>` but
never reads `pair`. -/
def potential (sqrt : ℚ → ℚ) (_pair : pairpotential) (p : List particle) (j : Nat) :
    Option ℚ := do
  let pj ← index p j
  if pj.charge = 0 then pure 0 else do
    let n : Int := p.length
    let u ← forLoop 0 j (fun i u => do
      let b ← index p i
      pure (u + b.charge / b.pos.dist sqrt pj.pos)) (0 : ℚ)
    let u ← forLoop (j + 1) n (fun i u => do
      let b ← index p i
      pure (u + b.charge / b.pos.dist sqrt pj.pos)) u
    pure u

end interaction

/-- The expanded pair potential that `int_hydrophobic<T>` asks for: a pair
potential with the additional function `hypairpot(a, b, r)`. -/
structure hypairpotential extends pairpotential where
  hypairpot : particle → particle → ℚ → ℚ

/-- The species ids `particle::NA`, `particle::CL`, `particle::I`; the
enumeration is not among the sources, so its three values are parameters. -/
structure species where
  NA : Nat
  CL : Nat
  I : Nat

/-- The data of `int_hydrophobic<T>`: the pair potential of the base class, the
lists `hy` and `pa` (`vector<unsigned short>`) and `end_of_protein_one`. -/
structure int_hydrophobic where
  pair : hypairpotential
  hy : List Nat
  pa : List Nat
  end_of_protein_one : Nat

/-- The locals `u`, `dmin`, `hymin` of `hyenergy(p, i)`; `hymin` is declared
without a value and is `none` until the first assignment. -/
structure hystate where
  u : ℚ
  dmin : ℚ
  hymin : Option Nat

namespace int_hydrophobic

/-- The constructor: empty lists and `end_of_protein_one = int(1e7)`. -/
def init (pot : hypairpotential) : int_hydrophobic :=
  ⟨pot, [], [], 10000000⟩

/-- `int_hydrophobic<T>::search`; `push_back(i)` stores the `int` index in an
`unsigned short`, that is modulo 65536. -/
def search (ids : species) (s : int_hydrophobic) (p : List particle) :
    Option int_hydrophobic := do
  let st ← forLoop 0 p.length (fun i st => do
    let a ← index p i
    if a.hydrophobic = true then
      pure (st.1 ++ [i.toNat % 65536], st.2)
    else if a.id = ids.NA ∨ a.id = ids.CL ∨ a.id = ids.I then
      pure (st.1, st.2 ++ [i.toNat % 65536])
    else
      pure st) (([] : List Nat), ([] : List Nat))
  pure ⟨s.pair, st.1, st.2, s.end_of_protein_one⟩

/-- The body of the loop of `hyenergy(p, i)` for one entry `h = hy[j]`, with
`a = p[i]`. Reading `hymin` before it has a value is undefined and gives no
result. -/
def hystep (sqrt : ℚ → ℚ) (s : int_hydrophobic) (p : List particle) (a : particle)
    (h : Nat) (st : hystate) : Option hystate := do
  let st1 ←
    if h > s.end_of_protein_one then do
      let m ← st.hymin
      let b ← index p m
      pure (hystate.mk (s.pair.hypairpot a b (sqrt st.dmin)) 10000000 st.hymin)
    else
      pure st
  let c ← index p h
  let d : ℚ := a.pos.sqdist c.pos
  if d < st1.dmin then
    pure (hystate.mk st1.u d (some h))
  else
    pure st1

/-- `int_hydrophobic<T>::hyenergy(const vector<particle>&, int)`. -/
def hyenergy_int (sqrt : ℚ → ℚ) (s : int_hydrophobic) (p : List particle) (i : Int) :
    Option ℚ := do
  let a ← index p i
  if a.hydrophobic = true then pure 0 else do
    let st ← forLoop 0 s.hy.length (fun j st => do
      let h ← index_us s.hy j
      hystep sqrt s p a h st) (hystate.mk 0 10000000 none)
    let m ← st.hymin
    let b ← index p m
    pure (s.pair.f * (st.u + s.pair.hypairpot a b (sqrt st.dmin)))

/-- `int_hydrophobic<T>::hyenergy(const vector<particle>&)`. -/
def hyenergy (sqrt : ℚ → ℚ) (s : int_hydrophobic) (p : List particle) : Option ℚ :=
  forLoop 0 s.pa.length (fun i u => do
    let k ← index_us s.pa i
    let e ← hyenergy_int sqrt s p k
    pure (u + e)) (0 : ℚ)

/-- `int_hydrophobic<T>::energy(const vector<particle>&)`. -/
def energy (sqrt : ℚ → ℚ) (s : int_hydrophobic) (p : List particle) : Option ℚ := do
  let e ← interaction.energy s.pair.topairpotential p
  let c ← hyenergy sqrt s p
  pure (e + c)

/-- `int_hydrophobic<T>::energy(const vector<particle>&, int)`. -/
def energy_int (sqrt : ℚ → ℚ) (s : int_hydrophobic) (p : List particle) (i : Int) :
    Option ℚ := do
  let e ← interaction.energy_int s.pair.topairpotential p i
  let c ← hyenergy sqrt s p
  pure (e + c)

/-- `int_hydrophobic<T>::energy(const vector<particle>&, const group&)`. -/
def energy_group (sqrt : ℚ → ℚ) (s : int_hydrophobic) (p : List particle) (g : group) :
    Option ℚ := do
  let e ← interaction.energy_group s.pair.topairpotential p g
  let c ← hyenergy sqrt s p
  pure (e + c)

end int_hydrophobic

/-- A square root for concrete evaluations, exact on squares of rationals. -/
def sqrtExact (q : ℚ) : ℚ :=
  (Nat.sqrt q.num.toNat : ℚ) / (Nat.sqrt q.den : ℚ)

/-- A particle on the x axis, for concrete evaluations. -/
def onAxis (x q : ℚ) (id : Nat) (hydrophobic : Bool) : particle :=
  ⟨x, 0, 0, q, id, hydrophobic⟩

/-- Species ids for concrete evaluations. -/
def someSpecies : species :=
  ⟨1, 2, 3⟩

/-- An expanded pair potential for concrete evaluations: scale factor 2, product
of charges, and a hydrophobic term `charge of b` times the distance. -/
def someHyPotential : hypairpotential :=
  ⟨chargeProduct, fun _ b r => b.charge * r⟩

/-- One hydrophobic sodium ion, for concrete evaluations. -/
def hydrophobicSodium : List particle :=
  [onAxis 0 1 someSpecies.NA true]

/-- Two particles of charge 1 at distance 1 on the x axis, for concrete evaluations. -/
def twoOnAxis : List particle :=
  [onAxis 0 1 0 false, onAxis 1 1 0 false]

/-- Three hydrophobic particles at distances 1, 2 and 3 from a sodium ion at the
origin (index 3), with charges 1, 10 and 100, for concrete evaluations. -/
def threeHydrophobicAndIon : List particle :=
  [onAxis 1 1 0 true, onAxis 2 10 0 true, onAxis 3 100 0 true, onAxis 0 1 1 false]

/-! ## Group lists and the Debye-Hückel potential -/

/-- The read `g[l]` of a `vector<macromolecule>` with an `int` index; of a
macromolecule (a group with further data, not among the sources) the engine
reads only `beg` and `end`. -/
def index_group (g : List group) (l : Int) : Option group :=
  if 0 ≤ l then g[l.toNat]? else none

namespace interaction

/-- `interaction<T>::energy(const vector<particle>&, const vector<macromolecule>&)`:
the energy between the groups of a list. -/
def energy_groups (pair : pairpotential) (p : List particle) (g : List group) : Option ℚ := do
  let j : Int := g.length
  let t : Int := p.length
  let u ← forLoop 0 j (fun l u => do
    let gl ← index_group g l
    let k : Int := gl.end_ + 1
    forLoop gl.beg k (fun i u =>
      forLoop (gl.end_ + 1) t (fun s u => addpot pair p i s u) u) u) (0 : ℚ)
  pure (pair.f * u)

end interaction

/-- Whether the groups of a list tile the index range `[a, n)` in order: each group
is non-empty (`beg ≤ end`), the first begins at `a`, every next one begins right
after its predecessor ends, and the last ends at `n - 1`. -/
def tiles : List group → Int → Int → Bool
  | [], a, n => decide (a = n)
  | g :: rest, a, n => decide (g.beg = a) && decide (g.beg ≤ g.end_) && tiles rest (g.end_ + 1) n

/-- Modelled from the spec: the configuration source `inputfile` (inputfile.h is not
among the sources), a key/value store with typed lookups that take a default. The
number type `K` stands for `double`. -/
structure inputfile (K : Type) where
  entries : List (String × K)

/-- Modelled from the spec: `inputfile::getflt(key, default)`, the value stored
under the key, or the default when the key is absent. -/
def inputfile.getflt {K : Type} (cfg : inputfile K) (key : String) (dflt : K) : K :=
  (cfg.entries.lookup key).getD dflt

namespace Potential

/-- The members of `Core::debyehuckel` that the constructor sets: `lB` of the base
class `coulomb`, `c` and `k`. -/
structure debyehuckel (K : Type) where
  lB : K
  c : K
  k : K

/-- The constructor `debyehuckel::debyehuckel(inputfile&)`, over an ordered field `K`
for `double` with its square root `sqrt`: the rationals with an exact root for
evaluation, the reals with `Real.sqrt` for statements over the reals. The Bjerrum
length `lB` set by the base constructor and the constants `pc::pi`, `pc::Nav` come
from physconst.h, which is not among the sources; they are parameters. -/
def debyehuckel.construct {K : Type} [LinearOrderedField K] (sqrt : K → K)
    (lB pi Nav : K) (cfg : inputfile K) : debyehuckel K :=
  let zero : K := 1 / 10000000000
  let c : K := 8 * lB * pi * Nav / 1000000000000000000000000000
  let I : K := cfg.getflt ("dh_ionicstrength") 0
  let k : K := sqrt (I * c)
  let k : K := if k < zero then 1 / cfg.getflt ("dh_debyelength") (1 / zero) else k
  let k : K := -k
  ⟨lB, c, k⟩

/-- `debyehuckel::ionic_strength`. -/
def debyehuckel.ionic_strength {K : Type} [LinearOrderedField K] (d : debyehuckel K) : K :=
  d.k * d.k / d.c

/-- `debyehuckel::debye_length`. -/
def debyehuckel.debye_length {K : Type} [LinearOrderedField K] (d : debyehuckel K) : K :=
  -1 / d.k

end Potential

/-- Four particles with charges 1, 2, 3, 4, for concrete evaluations. -/
def fourIons : List particle :=
  [ion 1, ion 2, ion 3, ion 4]

/-- A pair potential that is not symmetric, for concrete evaluations: the charge of
the first particle plus twice the charge of the second, with scale factor 3. -/
def lopsided : pairpotential :=
  ⟨3, fun a b => a.charge + 2 * b.charge⟩

/-- A configuration with ionic strength 0.1 mol/l and no Debye length, for concrete
instances. -/
def saltConfig (K : Type) [LinearOrderedField K] : inputfile K :=
  ⟨[("dh_ionicstrength", 1 / 10)]⟩

/-- A configuration with no ionic strength and Debye length 5, for concrete
instances. -/
def lengthConfig (K : Type) [LinearOrderedField K] : inputfile K :=
  ⟨[("dh_debyelength", 5)]⟩


/-! ## The parallel regions of `energy(p, g)` and `energy(p, g1, g2)`

In both functions the inner counter `j` is declared before the
`#pragma omp parallel for`, so only the loop variable `i` and the reduction
variable `u` are private: the two threads of the team share `j`. The
definitions below run the two threads statement by statement under an
interleaving that is a parameter. -/

/-- A thread of an `omp parallel for` team: its program counter, its private loop
variable `i`, the end of its share of the outer iterations and its private copy
of the reduction variable `u`. -/
structure omp_thread where
  pc : Nat
  i : Int
  stop : Int
  u : ℚ

/-- The team of two threads (`num_threads(2)`) and the variable `j` they share. -/
structure omp_team where
  t0 : omp_thread
  t1 : omp_thread
  j : Int

/-- Runs the team under an interleaving: every entry of `sched` lets thread 0
(`false`) or thread 1 (`true`) execute its next statement. -/
def omp_run (step : omp_thread → Int → Option (omp_thread × Int)) (sched : List Bool)
    (team : omp_team) : Option omp_team :=
  sched.foldlM (fun tm who =>
    if who = true then (step tm.t1 tm.j).map (fun r => omp_team.mk tm.t0 r.1 r.2)
    else (step tm.t0 tm.j).map (fun r => omp_team.mk r.1 tm.t1 r.2)) team

namespace interaction

/-- One statement of a thread in the parallel region of `energy(p, g)`. The program
counter is 0 at the test `i < stop`, 1 at `j = 0`, 2 at the test `j < g.beg`, 3 at
`u += pair.pairpot(p[i], p[j])`, 4 at `j++`, 5 at `j = n`, 6 at the test `j < psize`,
7 at `u += pair.pairpot(p[i], p[j])`, 8 at `j++`, 9 at `i++` and 10 when the thread
has finished. The second component is the shared `j` after the statement. -/
def energy_group_step (pair : pairpotential) (p : List particle) (g : group)
    (t : omp_thread) (j : Int) : Option (omp_thread × Int) :=
  match t.pc with
  | 0 => some (if t.i < t.stop then ⟨1, t.i, t.stop, t.u⟩ else ⟨10, t.i, t.stop, t.u⟩, j)
  | 1 => some (⟨2, t.i, t.stop, t.u⟩, 0)
  | 2 => some (if j < g.beg then ⟨3, t.i, t.stop, t.u⟩ else ⟨5, t.i, t.stop, t.u⟩, j)
  | 3 => (addpot pair p t.i j t.u).map (fun u => (⟨4, t.i, t.stop, u⟩, j))
  | 4 => some (⟨2, t.i, t.stop, t.u⟩, j + 1)
  | 5 => some (⟨6, t.i, t.stop, t.u⟩, g.end_ + 1)
  | 6 => some (if j < (p.length : Int) then ⟨7, t.i, t.stop, t.u⟩
      else ⟨9, t.i, t.stop, t.u⟩, j)
  | 7 => (addpot pair p t.i j t.u).map (fun u => (⟨8, t.i, t.stop, u⟩, j))
  | 8 => some (⟨6, t.i, t.stop, t.u⟩, j + 1)
  | 9 => some (⟨0, t.i + 1, t.stop, t.u⟩, j)
  | _ => some (t, j)

/-- `interaction<T>::energy(const vector<particle>&, const group&)` as built with
OpenMP: thread 0 runs the outer iterations `[g.beg, mid)`, thread 1 runs
`[mid, g.end + 1)`, interleaved as `sched` says; the reduction adds the two private
sums to `u = 0`. There is no result when a read leaves the vector or when `sched`
ends before both threads have finished. The shared `j` has no initial value in the
source; every thread assigns it before reading it. -/
def energy_group_omp (sched : List Bool) (mid : Int) (pair : pairpotential)
    (p : List particle) (g : group) : Option ℚ := do
  let n : Int := g.end_ + 1
  let team ← omp_run (energy_group_step pair p g) sched
    ⟨⟨0, g.beg, mid, 0⟩, ⟨0, mid, n, 0⟩, 0⟩
  if team.t0.pc = 10 ∧ team.t1.pc = 10 then
    pure (pair.f * (0 + team.t0.u + team.t1.u))
  else none

/-- One statement of a thread in the parallel region of `energy(p, g1, g2)`. The
program counter is 0 at the test `i < stop`, 1 at `j = g2.beg`, 2 at the test
`j < jlen`, 3 at `u += pair.pairpot(p[i], p[j])`, 4 at `j++`, 5 at `i++` and 6 when
the thread has finished. -/
def energy_group_group_step (pair : pairpotential) (p : List particle) (g2 : group)
    (t : omp_thread) (j : Int) : Option (omp_thread × Int) :=
  match t.pc with
  | 0 => some (if t.i < t.stop then ⟨1, t.i, t.stop, t.u⟩ else ⟨6, t.i, t.stop, t.u⟩, j)
  | 1 => some (⟨2, t.i, t.stop, t.u⟩, g2.beg)
  | 2 => some (if j < g2.end_ + 1 then ⟨3, t.i, t.stop, t.u⟩
      else ⟨5, t.i, t.stop, t.u⟩, j)
  | 3 => (addpot pair p t.i j t.u).map (fun u => (⟨4, t.i, t.stop, u⟩, j))
  | 4 => some (⟨2, t.i, t.stop, t.u⟩, j + 1)
  | 5 => some (⟨0, t.i + 1, t.stop, t.u⟩, j)
  | _ => some (t, j)

/-- `interaction<T>::energy(const vector<particle>&, const group&, const group&)` as
built with OpenMP: thread 0 runs the outer iterations `[g1.beg, mid)`, thread 1 runs
`[mid, g1.end + 1)`, interleaved as `sched` says. -/
def energy_group_group_omp (sched : List Bool) (mid : Int) (pair : pairpotential)
    (p : List particle) (g1 g2 : group) : Option ℚ := do
  let ilen : Int := g1.end_ + 1
  let team ← omp_run (energy_group_group_step pair p g2) sched
    ⟨⟨0, g1.beg, mid, 0⟩, ⟨0, mid, ilen, 0⟩, 0⟩
  if team.t0.pc = 6 ∧ team.t1.pc = 6 then
    pure (pair.f * (0 + team.t0.u + team.t1.u))
  else none

end interaction

/-- The interleaving in which thread 0 runs to its end before thread 1 starts. -/
def oneAfterTheOther (n0 n1 : Nat) : List Bool :=
  List.replicate n0 false ++ List.replicate n1 true

/-- An interleaving in which thread 1 executes its first two statements (the test of
`i` and the assignment to `j`), then thread 0 runs to its end, then thread 1
continues. -/
def overtaken (n0 n1 : Nat) : List Bool :=
  [true, true] ++ List.replicate n0 false ++ List.replicate n1 true

/-! ## Loops as interval sums -/

theorem Ico_eq_insert_left {a b : Int} (h : a < b) :
    Finset.Ico a b = insert a (Finset.Ico (a + 1) b) := by
  ext i
  simp only [Finset.mem_Ico, Finset.mem_insert]
  omega

theorem sum_Ico_pop_left (t : Int → ℚ) {a b : Int} (h : a < b) :
    ∑ i ∈ Finset.Ico a b, t i = t a + ∑ i ∈ Finset.Ico (a + 1) b, t i := by
  rw [Ico_eq_insert_left h, Finset.sum_insert]
  simp

theorem sum_Ico_split (t : Int → ℚ) {a b c : Int} (hab : a ≤ b) (hbc : b ≤ c) :
    ∑ i ∈ Finset.Ico a c, t i = ∑ i ∈ Finset.Ico a b, t i + ∑ i ∈ Finset.Ico b c, t i := by
  rw [← Finset.Ico_union_Ico_eq_Ico hab hbc,
    Finset.sum_union (Finset.Ico_disjoint_Ico_consecutive a b c)]

theorem iterate_sum (body : Int → ℚ → Option ℚ) (t : Int → ℚ) :
    ∀ (n : Nat) (a : Int) (u : ℚ),
      (∀ i, a ≤ i → i < a + n → ∀ v, body i v = some (v + t i)) →
      iterate body n a u = some (u + ∑ i ∈ Finset.Ico a (a + n), t i) := by
  intro n
  induction n with
  | zero => intro a u _; simp [iterate]
  | succ n ih =>
    intro a u h
    have h0 : body a u = some (u + t a) := h a le_rfl (by push_cast; omega) u
    have h1 : ∀ i, a + 1 ≤ i → i < a + 1 + n → ∀ v, body i v = some (v + t i) :=
      fun i hi hi2 v => h i (by omega) (by push_cast; omega) v
    have h2 : a < a + ((n + 1 : Nat) : Int) := by push_cast; omega
    have h3 : a + 1 + (n : Int) = a + ((n + 1 : Nat) : Int) := by push_cast; ring
    rw [iterate, h0, Option.some_bind, ih (a + 1) (u + t a) h1, sum_Ico_pop_left t h2, h3,
      add_assoc]

theorem forLoop_sum (body : Int → ℚ → Option ℚ) (t : Int → ℚ) (a b : Int) (u : ℚ)
    (h : ∀ i, a ≤ i → i < b → ∀ v, body i v = some (v + t i)) :
    forLoop a b body u = some (u + ∑ i ∈ Finset.Ico a b, t i) := by
  unfold forLoop
  rcases le_or_lt a b with hab | hab
  · have e : a + (((b - a).toNat : Nat) : Int) = b := by omega
    have := iterate_sum body t (b - a).toNat a u (fun i hi hi2 v => h i hi (by omega) v)
    rw [e] at this
    exact this
  · have e : (b - a).toNat = 0 := by omega
    rw [e, Finset.Ico_eq_empty (by omega)]
    simp [iterate]

theorem index_eq (p : List particle) {i : Int} (h0 : 0 ≤ i) (h1 : i < p.length) :
    index p i = some (pat p i) := by
  have h2 : i.toNat < p.length := by omega
  simp [pat, index, h0, List.getElem?_eq_getElem h2]

theorem addpot_eq (pair : pairpotential) (p : List particle) {i j : Int} (u : ℚ)
    (hi0 : 0 ≤ i) (hi1 : i < p.length) (hj0 : 0 ≤ j) (hj1 : j < p.length) :
    addpot pair p i j u = some (u + pair.pairpot (pat p i) (pat p j)) := by
  simp [addpot, index_eq p hi0 hi1, index_eq p hj0 hj1]

/-! ## The loops of the engine in closed form -/

namespace interaction

theorem energy_int_loops (pair : pairpotential) (p : List particle) (j : Int)
    (hj0 : 0 ≤ j) (hj1 : j < p.length) :
    energy_int pair p j = some (pair.f *
      (∑ i ∈ Finset.Ico 0 j, pair.pairpot (pat p i) (pat p j)
        + ∑ i ∈ Finset.Ico (j + 1) (p.length : Int), pair.pairpot (pat p i) (pat p j))) := by
  unfold energy_int
  rw [forLoop_sum _ (fun i => pair.pairpot (pat p i) (pat p j)) 0 j 0
    (fun i h0 h1 v => addpot_eq pair p v h0 (by omega) hj0 hj1)]
  simp only [Option.bind_eq_bind, Option.some_bind]
  rw [forLoop_sum _ (fun i => pair.pairpot (pat p i) (pat p j)) (j + 1) p.length _
    (fun i h0 h1 v => addpot_eq pair p v (by omega) h1 hj0 hj1)]
  simp

theorem energy_group_loops (pair : pairpotential) (p : List particle) (g : group)
    (h0 : 0 ≤ g.beg) (h2 : g.end_ < p.length) :
    energy_group pair p g = some (pair.f *
      ∑ i ∈ Finset.Ico g.beg (g.end_ + 1),
        (∑ j ∈ Finset.Ico 0 g.beg, pair.pairpot (pat p i) (pat p j)
          + ∑ j ∈ Finset.Ico (g.end_ + 1) (p.length : Int),
              pair.pairpot (pat p i) (pat p j))) := by
  unfold energy_group
  dsimp only
  rw [forLoop_sum _ (fun i => ∑ j ∈ Finset.Ico 0 g.beg, pair.pairpot (pat p i) (pat p j)
          + ∑ j ∈ Finset.Ico (g.end_ + 1) (p.length : Int),
              pair.pairpot (pat p i) (pat p j)) g.beg (g.end_ + 1) 0]
  · simp
  · intro i hi0 hi1 v
    rw [forLoop_sum _ (fun j => pair.pairpot (pat p i) (pat p j)) 0 g.beg v
      (fun j hj0 hj1 w => addpot_eq pair p w (by omega) (by omega) hj0 (by omega))]
    simp only [Option.bind_eq_bind, Option.some_bind]
    rw [forLoop_sum _ (fun j => pair.pairpot (pat p i) (pat p j)) (g.end_ + 1) p.length _
      (fun j hj0 hj1 w => addpot_eq pair p w (by omega) (by omega) (by omega) hj1)]
    rw [add_assoc]

theorem energy_group_int_loops_in (pair : pairpotential) (p : List particle) (g : group)
    (j : Int) (h0 : 0 ≤ g.beg) (h2 : g.end_ < p.length)
    (hj0 : g.beg ≤ j) (hj1 : j ≤ g.end_) :
    energy_group_int pair p g j = some (pair.f *
      (∑ i ∈ Finset.Ico g.beg j, pair.pairpot (pat p i) (pat p j)
        + ∑ i ∈ Finset.Ico (j + 1) (g.end_ + 1), pair.pairpot (pat p i) (pat p j))) := by
  have hf : g.find j = true := by simp [group.find, hj0, hj1]
  unfold energy_group_int
  rw [if_pos hf]
  rw [forLoop_sum _ (fun i => pair.pairpot (pat p i) (pat p j)) g.beg j 0
    (fun i hi0 hi1 v => addpot_eq pair p v (by omega) (by omega) (by omega) (by omega))]
  simp only [Option.bind_eq_bind, Option.some_bind]
  rw [forLoop_sum _ (fun i => pair.pairpot (pat p i) (pat p j)) (j + 1) (g.end_ + 1) _
    (fun i hi0 hi1 v => addpot_eq pair p v (by omega) (by omega) (by omega) (by omega))]
  simp

theorem energy_group_int_loops_out (pair : pairpotential) (p : List particle) (g : group)
    (j : Int) (h0 : 0 ≤ g.beg) (h2 : g.end_ < p.length)
    (hj0 : 0 ≤ j) (hj1 : j < p.length) (hout : ¬ (g.beg ≤ j ∧ j ≤ g.end_)) :
    energy_group_int pair p g j = some (pair.f *
      ∑ i ∈ Finset.Ico g.beg (g.end_ + 1), pair.pairpot (pat p i) (pat p j)) := by
  have hf : ¬ (g.find j = true) := by simpa [group.find] using hout
  unfold energy_group_int
  rw [if_neg hf]
  rw [forLoop_sum _ (fun i => pair.pairpot (pat p i) (pat p j)) g.beg (g.end_ + 1) 0
    (fun i hi0 hi1 v => addpot_eq pair p v (by omega) (by omega) hj0 hj1)]
  simp

theorem energy_group_particle_loops (pair : pairpotential) (p : List particle) (g : group)
    (a : particle) (h0 : 0 ≤ g.beg) (h2 : g.end_ < p.length) :
    energy_group_particle pair p g a = some (pair.f *
      ∑ i ∈ Finset.Ico g.beg (g.end_ + 1), pair.pairpot a (pat p i)) := by
  have hb : ¬ (g.beg = -1) := by omega
  unfold energy_group_particle
  rw [if_neg hb]
  dsimp only
  rw [forLoop_sum _ (fun i => pair.pairpot a (pat p i)) g.beg (g.end_ + 1) 0
    (fun i hi0 hi1 v => by simp [index_eq p (i := i) (by omega) (by omega)])]
  simp

theorem energy_loops (pair : pairpotential) (p : List particle) :
    energy pair p = some (pair.f *
      ∑ i ∈ Finset.Ico (0 : Int) ((p.length : Int) - 1),
        ∑ j ∈ Finset.Ico (i + 1) (p.length : Int), pair.pairpot (pat p i) (pat p j)) := by
  unfold energy
  dsimp only
  rw [forLoop_sum _ (fun i => ∑ j ∈ Finset.Ico (i + 1) (p.length : Int),
      pair.pairpot (pat p i) (pat p j)) 0 ((p.length : Int) - 1) 0]
  · simp
  · intro i hi0 hi1 v
    exact forLoop_sum _ (fun j => pair.pairpot (pat p i) (pat p j)) (i + 1) p.length v
      (fun j hj0 hj1 w => addpot_eq pair p w hi0 (by omega) (by omega) hj1)

theorem energy_group_group_loops (pair : pairpotential) (p : List particle) (g1 g2 : group)
    (h0 : 0 ≤ g1.beg) (h2 : g1.end_ < p.length) (k0 : 0 ≤ g2.beg) (k2 : g2.end_ < p.length) :
    energy_group_group pair p g1 g2 = some (pair.f *
      ∑ i ∈ Finset.Ico g1.beg (g1.end_ + 1), ∑ j ∈ Finset.Ico g2.beg (g2.end_ + 1),
        pair.pairpot (pat p i) (pat p j)) := by
  unfold energy_group_group
  dsimp only
  rw [forLoop_sum _ (fun i => ∑ j ∈ Finset.Ico g2.beg (g2.end_ + 1),
      pair.pairpot (pat p i) (pat p j)) g1.beg (g1.end_ + 1) 0]
  · simp
  · intro i hi0 hi1 v
    exact forLoop_sum _ (fun j => pair.pairpot (pat p i) (pat p j)) g2.beg (g2.end_ + 1) v
      (fun j hj0 hj1 w => addpot_eq pair p w (by omega) (by omega) (by omega) (by omega))

theorem internal_loops (pair : pairpotential) (p : List particle) (g : group)
    (h0 : 0 ≤ g.beg) (h2 : g.end_ < p.length) :
    internal pair p g = some (pair.f *
      ∑ i ∈ Finset.Ico g.beg g.end_, ∑ j ∈ Finset.Ico (i + 1) (g.end_ + 1),
        pair.pairpot (pat p i) (pat p j)) := by
  have hb : ¬ (g.beg = -1) := by omega
  unfold internal
  rw [if_neg hb]
  dsimp only
  rw [forLoop_sum _ (fun i => ∑ j ∈ Finset.Ico (i + 1) (g.end_ + 1),
      pair.pairpot (pat p i) (pat p j)) g.beg (g.end_ + 1 - 1) 0]
  · simp
  · intro i hi0 hi1 v
    exact forLoop_sum _ (fun j => pair.pairpot (pat p i) (pat p j)) (i + 1) (g.end_ + 1) v
      (fun j hj0 hj1 w => addpot_eq pair p w (by omega) (by omega) (by omega) (by omega))

end interaction

/-! ## Interval sums: splitting, removing a point, pairs -/

theorem Icc_eq_Ico_succ (a b : Int) : Finset.Icc a b = Finset.Ico a (b + 1) := by
  ext i
  simp only [Finset.mem_Icc, Finset.mem_Ico]
  omega

theorem sum_erase_Ico (t : Int → ℚ) {a b j : Int} (h0 : a ≤ j) (h1 : j < b) :
    ∑ i ∈ (Finset.Ico a b).erase j, t i
      = ∑ i ∈ Finset.Ico a j, t i + ∑ i ∈ Finset.Ico (j + 1) b, t i := by
  have hmem : j ∈ Finset.Ico a b := Finset.mem_Ico.mpr ⟨h0, h1⟩
  have e1 := Finset.add_sum_erase (Finset.Ico a b) t hmem
  have e2 := sum_Ico_split t h0 (le_of_lt h1)
  have e3 := sum_Ico_pop_left t h1
  linarith

theorem sum_sdiff_Ico (t : Int → ℚ) {a b c d : Int} (h0 : a ≤ b) (h1 : b ≤ c) (h2 : c ≤ d) :
    ∑ i ∈ Finset.Ico a d \ Finset.Ico b c, t i
      = ∑ i ∈ Finset.Ico a b, t i + ∑ i ∈ Finset.Ico c d, t i := by
  have hsub : Finset.Ico b c ⊆ Finset.Ico a d := by
    intro i hi
    simp only [Finset.mem_Ico] at hi ⊢
    omega
  have e1 := Finset.sum_sdiff (f := t) hsub
  have e2 := sum_Ico_split t h0 (le_trans h1 h2)
  have e3 := sum_Ico_split t h1 h2
  linarith

theorem sum_above_in_Ico (t : Int → ℚ) {a c i : Int} (h0 : a ≤ i) :
    (∑ j ∈ Finset.Ico a c, if i < j then t j else 0) = ∑ j ∈ Finset.Ico (i + 1) c, t j := by
  rw [← Finset.sum_filter]
  congr 1
  ext j
  simp only [Finset.mem_filter, Finset.mem_Ico]
  omega

/-- The sum over all pairs `i < j` of an interval is the nested sum of the
double loop `for i in [a, c) for j in [i+1, c)`. -/
theorem sum_pairs_Ico (T : Int → Int → ℚ) (a c : Int) :
    ∑ x ∈ (Finset.Ico a c ×ˢ Finset.Ico a c).filter (fun x => x.1 < x.2), T x.1 x.2
      = ∑ i ∈ Finset.Ico a c, ∑ j ∈ Finset.Ico (i + 1) c, T i j := by
  rw [Finset.sum_filter, Finset.sum_product]
  apply Finset.sum_congr rfl
  intro i hi
  exact sum_above_in_Ico (T i) (Finset.mem_Ico.mp hi).1

/-- The outer loop of a pair sum may stop one short: the last index has no
partner above it. -/
theorem sum_pairs_outer_pred (T : Int → Int → ℚ) (a c : Int) :
    ∑ i ∈ Finset.Ico a (c - 1), ∑ j ∈ Finset.Ico (i + 1) c, T i j
      = ∑ i ∈ Finset.Ico a c, ∑ j ∈ Finset.Ico (i + 1) c, T i j := by
  rcases lt_or_le a c with h | h
  · rw [sum_Ico_split (fun i => ∑ j ∈ Finset.Ico (i + 1) c, T i j)
      (show a ≤ c - 1 by omega) (show c - 1 ≤ c by omega)]
    rw [sum_Ico_pop_left (fun i => ∑ j ∈ Finset.Ico (i + 1) c, T i j)
      (show c - 1 < c by omega)]
    simp
  · rw [Finset.Ico_eq_empty (by omega), Finset.Ico_eq_empty (by omega)]

/-! ## The sums computed by the engine -/

/-- C2: for every particle collection `p`, `energy(p)` is `pair.f` times the sum of
`pairpot(p[i], p[j])` over all index pairs `0 ≤ i < j < p.size()`, every unordered
pair once and no particle with itself; for the empty and for a one-particle
collection the result is 0. -/
theorem energy_counts_each_pair_once (pair : pairpotential) (p : List particle) :
    interaction.energy pair p
        = some (pair.f *
            ∑ x ∈ (Finset.Ico (0 : Int) p.length ×ˢ Finset.Ico (0 : Int) p.length).filter
                (fun x => x.1 < x.2),
              pair.pairpot (pat p x.1) (pat p x.2))
      ∧ interaction.energy pair [] = some 0
      ∧ ∀ a : particle, interaction.energy pair [a] = some 0 := by
  refine ⟨?_, ?_, ?_⟩
  · rw [interaction.energy_loops, sum_pairs_Ico (fun i j => pair.pairpot (pat p i) (pat p j)),
      sum_pairs_outer_pred (fun i j => pair.pairpot (pat p i) (pat p j))]
  · simp [interaction.energy, forLoop, iterate]
  · intro a
    simp [interaction.energy, forLoop, iterate]

/-- C3: self-exclusion. For every index `0 ≤ j < p.size()`, `energy(p, j)` is `pair.f`
times the sum of `pairpot(p[k], p[j])` over all indices `k ≠ j` of the collection;
the index `j` itself is not in the range of the sum. -/
theorem energy_int_excludes_self (pair : pairpotential) (p : List particle) (j : Int)
    (hj0 : 0 ≤ j) (hj1 : j < p.length) :
    interaction.energy_int pair p j
      = some (pair.f *
          ∑ k ∈ (Finset.Ico (0 : Int) p.length).erase j, pair.pairpot (pat p k) (pat p j)) := by
  rw [interaction.energy_int_loops pair p j hj0 hj1,
    sum_erase_Ico (fun k => pair.pairpot (pat p k) (pat p j)) hj0 hj1]

/-- Executed by one thread, for a well-formed group `0 ≤ beg ≤ end < p.size()`,
`energy(p, g)` is `pair.f` times the sum of `pairpot(p[i], p[j])` over every `i` inside `[beg, end]` and every
index `j` of the collection outside `[beg, end]`. -/
theorem energy_group_is_external_sum (pair : pairpotential) (p : List particle) (g : group)
    (h0 : 0 ≤ g.beg) (h1 : g.beg ≤ g.end_) (h2 : g.end_ < p.length) :
    interaction.energy_group pair p g
      = some (pair.f *
          ∑ i ∈ Finset.Icc g.beg g.end_,
            ∑ j ∈ Finset.Ico (0 : Int) p.length \ Finset.Icc g.beg g.end_,
              pair.pairpot (pat p i) (pat p j)) := by
  rw [interaction.energy_group_loops pair p g h0 h2, Icc_eq_Ico_succ]
  congr 2
  apply Finset.sum_congr rfl
  intro i _
  rw [sum_sdiff_Ico (fun j => pair.pairpot (pat p i) (pat p j)) h0 (by omega) (by omega)]

/-- C5: for a well-formed group, `internal(p, g)` is `pair.f` times the sum of
`pairpot(p[i], p[j])` over all pairs `beg ≤ i < j ≤ end`; and whenever `g.beg = -1`
it returns exactly 0. -/
theorem internal_is_pair_sum_inside_group (pair : pairpotential) (p : List particle)
    (g : group) :
    (0 ≤ g.beg → g.beg ≤ g.end_ → g.end_ < p.length →
      interaction.internal pair p g
        = some (pair.f *
            ∑ x ∈ (Finset.Icc g.beg g.end_ ×ˢ Finset.Icc g.beg g.end_).filter
                (fun x => x.1 < x.2),
              pair.pairpot (pat p x.1) (pat p x.2)))
      ∧ (g.beg = -1 → interaction.internal pair p g = some 0) := by
  constructor
  · intro h0 _ h2
    rw [interaction.internal_loops pair p g h0 h2, Icc_eq_Ico_succ,
      sum_pairs_Ico (fun i j => pair.pairpot (pat p i) (pat p j)),
      ← sum_pairs_outer_pred (fun i j => pair.pairpot (pat p i) (pat p j))]
    simp
  · intro hb
    simp [interaction.internal, hb]

/-- C6: for a well-formed group and an index `0 ≤ j < p.size()`: if `j` is a member of
the group, `energy(p, g, j)` is `pair.f` times the sum of `pairpot(p[i], p[j])` over
all `i` in `[beg, end]` other than `j`; if `j` is not a member, it is `pair.f` times
the sum over every `i` in `[beg, end]`. -/
theorem energy_group_int_sum (pair : pairpotential) (p : List particle) (g : group) (j : Int)
    (h0 : 0 ≤ g.beg) (h1 : g.beg ≤ g.end_) (h2 : g.end_ < p.length)
    (hj0 : 0 ≤ j) (hj1 : j < p.length) :
    (g.beg ≤ j ∧ j ≤ g.end_ →
      interaction.energy_group_int pair p g j
        = some (pair.f *
            ∑ i ∈ (Finset.Icc g.beg g.end_).erase j, pair.pairpot (pat p i) (pat p j)))
      ∧ (¬ (g.beg ≤ j ∧ j ≤ g.end_) →
        interaction.energy_group_int pair p g j
          = some (pair.f *
              ∑ i ∈ Finset.Icc g.beg g.end_, pair.pairpot (pat p i) (pat p j))) := by
  have _ := h1
  constructor
  · intro hin
    rw [interaction.energy_group_int_loops_in pair p g j h0 h2 hin.1 hin.2, Icc_eq_Ico_succ,
      sum_erase_Ico (fun i => pair.pairpot (pat p i) (pat p j)) hin.1 (by omega)]
  · intro hout
    rw [interaction.energy_group_int_loops_out pair p g j h0 h2 hj0 hj1 hout, Icc_eq_Ico_succ]

/-- Executed by one thread, for two well-formed groups that do not overlap,
`energy(p, g1, g2)` is `pair.f` times the sum of `pairpot(p[i], p[j])` over every `i` in `g1` and every `j` in `g2`:
one term for each element of the product of the two ranges. -/
theorem energy_group_group_cross_sum (pair : pairpotential) (p : List particle)
    (g1 g2 : group)
    (h0 : 0 ≤ g1.beg) (h1 : g1.beg ≤ g1.end_) (h2 : g1.end_ < p.length)
    (k0 : 0 ≤ g2.beg) (k1 : g2.beg ≤ g2.end_) (k2 : g2.end_ < p.length)
    (hdisj : g1.end_ < g2.beg ∨ g2.end_ < g1.beg) :
    interaction.energy_group_group pair p g1 g2
      = some (pair.f *
          ∑ x ∈ Finset.Icc g1.beg g1.end_ ×ˢ Finset.Icc g2.beg g2.end_,
            pair.pairpot (pat p x.1) (pat p x.2)) := by
  have _ := h1
  have _ := k1
  have _ := hdisj
  rw [interaction.energy_group_group_loops pair p g1 g2 h0 h2 k0 k2, Finset.sum_product,
    Icc_eq_Ico_succ, Icc_eq_Ico_succ]

/-- C8: for a well-formed group and any particle value `a`, `energy(p, g, a)` is `pair.f`
times the sum of `pairpot(a, p[i])` over every `i` in `[beg, end]`; and whenever
`g.beg = -1` it returns exactly 0. -/
theorem energy_group_particle_sum (pair : pairpotential) (p : List particle) (g : group)
    (a : particle) :
    (0 ≤ g.beg → g.beg ≤ g.end_ → g.end_ < p.length →
      interaction.energy_group_particle pair p g a
        = some (pair.f * ∑ i ∈ Finset.Icc g.beg g.end_, pair.pairpot a (pat p i)))
      ∧ (g.beg = -1 → interaction.energy_group_particle pair p g a = some 0) := by
  constructor
  · intro h0 _ h2
    rw [interaction.energy_group_particle_loops pair p g a h0 h2, Icc_eq_Ico_succ]
  · intro hb
    simp [interaction.energy_group_particle, hb]

/-! ## Removing a range of indices -/

theorem sum_pairs_split (T : Int → Int → ℚ) {a c d : Int} (hac : a ≤ c) (hcd : c ≤ d) :
    ∑ i ∈ Finset.Ico a d, ∑ j ∈ Finset.Ico (i + 1) d, T i j
      = ∑ i ∈ Finset.Ico a c, ∑ j ∈ Finset.Ico (i + 1) c, T i j
        + ∑ i ∈ Finset.Ico a c, ∑ j ∈ Finset.Ico c d, T i j
        + ∑ i ∈ Finset.Ico c d, ∑ j ∈ Finset.Ico (i + 1) d, T i j := by
  rw [sum_Ico_split (fun i => ∑ j ∈ Finset.Ico (i + 1) d, T i j) hac hcd]
  congr 1
  rw [← Finset.sum_add_distrib]
  apply Finset.sum_congr rfl
  intro i hi
  have hi1 : i + 1 ≤ c := by
    have := (Finset.mem_Ico.mp hi).2
    omega
  exact sum_Ico_split (T i) hi1 hcd

theorem sum_pairs_shift (T : Int → Int → ℚ) (a c m : Int) :
    ∑ i ∈ Finset.Ico a c, ∑ j ∈ Finset.Ico (i + 1) c, T (i + m) (j + m)
      = ∑ i ∈ Finset.Ico (a + m) (c + m), ∑ j ∈ Finset.Ico (i + 1) (c + m), T i j := by
  rw [← Finset.sum_Ico_add' (fun i => ∑ j ∈ Finset.Ico (i + 1) (c + m), T i j) a c m]
  apply Finset.sum_congr rfl
  intro i _
  rw [Finset.sum_Ico_add' (fun j => T (i + m) j) (i + 1) c m]
  have e : i + 1 + m = i + m + 1 := by ring
  rw [e]

/-- Pair sums and the removal of the index range `[b, e1)`: the pairs of `[0, n)` are
the pairs inside the range, the pairs with one index inside and one outside, and
the pairs of the renumbered remainder. -/
theorem sum_pairs_remove_range (T R : Int → Int → ℚ) (b e1 n : Int)
    (h0 : 0 ≤ b) (h1 : b ≤ e1) (h2 : e1 ≤ n) (hsym : ∀ i j, T i j = T j i)
    (hR : ∀ i j, R i j
      = T (if i < b then i else i + (e1 - b)) (if j < b then j else j + (e1 - b))) :
    ∑ i ∈ Finset.Ico 0 n, ∑ j ∈ Finset.Ico (i + 1) n, T i j
      = ∑ i ∈ Finset.Ico b e1, ∑ j ∈ Finset.Ico (i + 1) e1, T i j
        + ∑ i ∈ Finset.Ico b e1,
            (∑ j ∈ Finset.Ico 0 b, T i j + ∑ j ∈ Finset.Ico e1 n, T i j)
        + ∑ i ∈ Finset.Ico 0 (n - (e1 - b)),
            ∑ j ∈ Finset.Ico (i + 1) (n - (e1 - b)), R i j := by
  have s1 := sum_pairs_split T h0 (le_trans h1 h2)
  have s2 := sum_pairs_split T h1 h2
  have s3 : ∑ i ∈ Finset.Ico 0 b, ∑ j ∈ Finset.Ico b n, T i j
      = ∑ i ∈ Finset.Ico 0 b, ∑ j ∈ Finset.Ico b e1, T i j
        + ∑ i ∈ Finset.Ico 0 b, ∑ j ∈ Finset.Ico e1 n, T i j := by
    rw [← Finset.sum_add_distrib]
    exact Finset.sum_congr rfl (fun i _ => sum_Ico_split (T i) h1 h2)
  have s4 := sum_pairs_split R h0 (show b ≤ n - (e1 - b) by omega)
  have s5 : ∑ i ∈ Finset.Ico 0 b, ∑ j ∈ Finset.Ico (i + 1) b, R i j
      = ∑ i ∈ Finset.Ico 0 b, ∑ j ∈ Finset.Ico (i + 1) b, T i j := by
    apply Finset.sum_congr rfl
    intro i hi
    apply Finset.sum_congr rfl
    intro j hj
    rw [hR, if_pos (Finset.mem_Ico.mp hi).2, if_pos (Finset.mem_Ico.mp hj).2]
  have s6 : ∑ i ∈ Finset.Ico 0 b, ∑ j ∈ Finset.Ico b (n - (e1 - b)), R i j
      = ∑ i ∈ Finset.Ico 0 b, ∑ j ∈ Finset.Ico e1 n, T i j := by
    apply Finset.sum_congr rfl
    intro i hi
    have e : ∑ j ∈ Finset.Ico b (n - (e1 - b)), R i j
        = ∑ j ∈ Finset.Ico b (n - (e1 - b)), T i (j + (e1 - b)) := by
      apply Finset.sum_congr rfl
      intro j hj
      rw [hR, if_pos (Finset.mem_Ico.mp hi).2, if_neg (not_lt.mpr (Finset.mem_Ico.mp hj).1)]
    rw [e, Finset.sum_Ico_add' (fun j => T i j) b (n - (e1 - b)) (e1 - b)]
    have e2 : b + (e1 - b) = e1 := by ring
    have e3 : n - (e1 - b) + (e1 - b) = n := by ring
    rw [e2, e3]
  have s7 : ∑ i ∈ Finset.Ico b (n - (e1 - b)), ∑ j ∈ Finset.Ico (i + 1) (n - (e1 - b)), R i j
      = ∑ i ∈ Finset.Ico e1 n, ∑ j ∈ Finset.Ico (i + 1) n, T i j := by
    have e : ∑ i ∈ Finset.Ico b (n - (e1 - b)),
          ∑ j ∈ Finset.Ico (i + 1) (n - (e1 - b)), R i j
        = ∑ i ∈ Finset.Ico b (n - (e1 - b)),
          ∑ j ∈ Finset.Ico (i + 1) (n - (e1 - b)), T (i + (e1 - b)) (j + (e1 - b)) := by
      apply Finset.sum_congr rfl
      intro i hi
      apply Finset.sum_congr rfl
      intro j hj
      have hib := (Finset.mem_Ico.mp hi).1
      have hji := (Finset.mem_Ico.mp hj).1
      rw [hR, if_neg (not_lt.mpr hib), if_neg (by omega)]
    rw [e, sum_pairs_shift T b (n - (e1 - b)) (e1 - b)]
    have e2 : b + (e1 - b) = e1 := by ring
    have e3 : n - (e1 - b) + (e1 - b) = n := by ring
    rw [e2, e3]
  have s8 : ∑ i ∈ Finset.Ico b e1,
        (∑ j ∈ Finset.Ico 0 b, T i j + ∑ j ∈ Finset.Ico e1 n, T i j)
      = ∑ i ∈ Finset.Ico 0 b, ∑ j ∈ Finset.Ico b e1, T i j
        + ∑ i ∈ Finset.Ico b e1, ∑ j ∈ Finset.Ico e1 n, T i j := by
    rw [Finset.sum_add_distrib, Finset.sum_comm]
    congr 1
    exact Finset.sum_congr rfl (fun i _ => Finset.sum_congr rfl (fun j _ => hsym j i))
  linarith

theorem index_remove_range (p : List particle) (b e1 : Nat) (hb : b ≤ e1)
    (he : e1 ≤ p.length) (i : Int) :
    index (p.take b ++ p.drop e1) i
      = index p (if i < (b : Int) then i else i + ((e1 : Int) - b)) := by
  have hlen : (p.take b).length = b := by
    rw [List.length_take]
    omega
  by_cases hi0 : 0 ≤ i
  · by_cases hib : i < (b : Int)
    · have h1 : i.toNat < (p.take b).length := by omega
      have h2 : i.toNat < b := by omega
      rw [if_pos hib]
      simp only [index, if_pos hi0]
      rw [List.getElem?_append_left h1, List.getElem?_take_of_lt h2]
    · have h1 : (p.take b).length ≤ i.toNat := by omega
      have h3 : 0 ≤ i + ((e1 : Int) - b) := by omega
      have h4 : (i + ((e1 : Int) - b)).toNat = e1 + (i.toNat - b) := by omega
      rw [if_neg hib]
      simp only [index, if_pos hi0, if_pos h3]
      rw [List.getElem?_append_right h1, List.getElem?_drop, hlen, h4]
  · have hib : i < (b : Int) := by omega
    rw [if_pos hib]
    simp only [index, if_neg hi0]

theorem length_remove_range (p : List particle) (b e1 : Nat) (hb : b ≤ e1)
    (he : e1 ≤ p.length) :
    (((p.take b ++ p.drop e1).length : Nat) : Int) = (p.length : Int) - ((e1 : Int) - b) := by
  rw [List.length_append, List.length_take, List.length_drop]
  omega

/-- The decomposition identity when `energy(p, G)` is executed by one thread. For a
symmetric pair potential, a collection `p` and a well-formed group
`0 ≤ beg ≤ end < p.size()`, all four energies are defined and
`energy(p) = internal(p, G) + energy(p, G) + energy(p')`, where `p'` is `p` with the
particles of `G` removed, order kept. -/
theorem energy_decomposition (pair : pairpotential)
    (hsym : ∀ a b, pair.pairpot a b = pair.pairpot b a)
    (p : List particle) (g : group)
    (h0 : 0 ≤ g.beg) (h1 : g.beg ≤ g.end_) (h2 : g.end_ < p.length) :
    ∃ e i x c : ℚ,
      interaction.energy pair p = some e
        ∧ interaction.internal pair p g = some i
        ∧ interaction.energy_group pair p g = some x
        ∧ interaction.energy pair (p.take g.beg.toNat ++ p.drop (g.end_ + 1).toNat) = some c
        ∧ e = i + x + c := by
  have hb : g.beg.toNat ≤ (g.end_ + 1).toNat := by omega
  have he : (g.end_ + 1).toNat ≤ p.length := by omega
  have cb : ((g.beg.toNat : Nat) : Int) = g.beg := by omega
  have ce : (((g.end_ + 1).toNat : Nat) : Int) = g.end_ + 1 := by omega
  refine ⟨_, _, _, _, interaction.energy_loops pair p, interaction.internal_loops pair p g h0 h2,
    interaction.energy_group_loops pair p g h0 h2, interaction.energy_loops pair _, ?_⟩
  have key := sum_pairs_remove_range (fun i j => pair.pairpot (pat p i) (pat p j))
    (fun i j => pair.pairpot
      (pat (p.take g.beg.toNat ++ p.drop (g.end_ + 1).toNat) i)
      (pat (p.take g.beg.toNat ++ p.drop (g.end_ + 1).toNat) j))
    g.beg (g.end_ + 1) p.length h0 (by omega) (by omega) (fun i j => hsym _ _)
    (by
      intro i j
      have hi := index_remove_range p g.beg.toNat (g.end_ + 1).toNat hb he i
      have hj := index_remove_range p g.beg.toNat (g.end_ + 1).toNat hb he j
      rw [cb, ce] at hi hj
      simp only [pat, hi, hj])
  have q1 := sum_pairs_outer_pred (fun i j => pair.pairpot (pat p i) (pat p j)) 0 p.length
  have q2 := sum_pairs_outer_pred (fun i j => pair.pairpot (pat p i) (pat p j))
    g.beg (g.end_ + 1)
  have q3 := sum_pairs_outer_pred (fun i j => pair.pairpot
      (pat (p.take g.beg.toNat ++ p.drop (g.end_ + 1).toNat) i)
      (pat (p.take g.beg.toNat ++ p.drop (g.end_ + 1).toNat) j)) 0
    ((p.take g.beg.toNat ++ p.drop (g.end_ + 1).toNat).length : Int)
  have hl := length_remove_range p g.beg.toNat (g.end_ + 1).toNat hb he
  rw [cb, ce] at hl
  rw [hl] at q3
  rw [hl]
  have e2 : g.end_ + 1 - 1 = g.end_ := by ring
  rw [e2] at q2
  simp only at q1 q2 q3 key
  rw [q1, q2, q3, key]
  ring

/-! ## Removing one particle -/

theorem index_eraseIdx (p : List particle) (k : Nat) (i : Int) :
    index (p.eraseIdx k) i = index p (if i < (k : Int) then i else i + 1) := by
  by_cases hi0 : 0 ≤ i
  · by_cases hik : i < (k : Int)
    · have h1 : i.toNat < k := by omega
      rw [if_pos hik]
      simp only [index, if_pos hi0]
      rw [List.getElem?_eraseIdx_of_lt p k i.toNat h1]
    · have h1 : k ≤ i.toNat := by omega
      have h3 : 0 ≤ i + 1 := by omega
      have h4 : (i + 1).toNat = i.toNat + 1 := by omega
      rw [if_neg hik]
      simp only [index, if_pos hi0, if_pos h3]
      rw [List.getElem?_eraseIdx_of_ge p k i.toNat h1, h4]
  · have hik : i < (k : Int) := by omega
    rw [if_pos hik]
    simp only [index, if_neg hi0]

/-- C10: group/particle consistency. For a symmetric pair potential, a well-formed
group `G` and an index `j` inside it, `energy(p, G, j)` is defined and equals
`energy(p', G', p[j])`, where `p'` is `p` with particle `j` removed, `G'` is `G`
shrunk by one particle (the empty group `(-1, -1)` when `G = {j}`) and `p[j]` is
passed as an external particle. -/
theorem energy_group_int_consistent (pair : pairpotential)
    (hsym : ∀ a b, pair.pairpot a b = pair.pairpot b a)
    (p : List particle) (g : group) (j : Int)
    (h0 : 0 ≤ g.beg) (h1 : g.beg ≤ g.end_) (h2 : g.end_ < p.length)
    (hj0 : g.beg ≤ j) (hj1 : j ≤ g.end_) :
    ∃ v : ℚ,
      interaction.energy_group_int pair p g j = some v
        ∧ interaction.energy_group_particle pair (p.eraseIdx j.toNat)
            (if g.beg = g.end_ then group.mk (-1) (-1) else group.mk g.beg (g.end_ - 1))
            (pat p j) = some v := by
  have _ := h1
  refine ⟨_, interaction.energy_group_int_loops_in pair p g j h0 h2 hj0 hj1, ?_⟩
  by_cases hbe : g.beg = g.end_
  · have hj : j = g.beg := by omega
    rw [if_pos hbe, Finset.Ico_eq_empty (by omega), Finset.Ico_eq_empty (by omega)]
    simp [interaction.energy_group_particle]
  · have hlen : (((p.eraseIdx j.toNat).length : Nat) : Int) = (p.length : Int) - 1 := by
      rw [List.length_eraseIdx_of_lt (show j.toNat < p.length by omega)]
      omega
    have cj : ((j.toNat : Nat) : Int) = j := by omega
    rw [if_neg hbe, interaction.energy_group_particle_loops pair (p.eraseIdx j.toNat)
      (group.mk g.beg (g.end_ - 1)) (pat p j) h0 (by rw [hlen]; show g.end_ - 1 < _; omega)]
    show some (pair.f * ∑ i ∈ Finset.Ico g.beg (g.end_ - 1 + 1),
      pair.pairpot (pat p j) (pat (p.eraseIdx j.toNat) i)) = _
    have e1 : g.end_ - 1 + 1 = g.end_ := by ring
    rw [e1, sum_Ico_split (fun i => pair.pairpot (pat p j) (pat (p.eraseIdx j.toNat) i))
      hj0 hj1]
    have s1 : ∑ i ∈ Finset.Ico g.beg j, pair.pairpot (pat p j) (pat (p.eraseIdx j.toNat) i)
        = ∑ i ∈ Finset.Ico g.beg j, pair.pairpot (pat p i) (pat p j) := by
      apply Finset.sum_congr rfl
      intro i hi
      have hx := index_eraseIdx p j.toNat i
      rw [cj, if_pos (Finset.mem_Ico.mp hi).2] at hx
      rw [hsym (pat p i) (pat p j)]
      simp only [pat, hx]
    have s2 : ∑ i ∈ Finset.Ico j g.end_, pair.pairpot (pat p j) (pat (p.eraseIdx j.toNat) i)
        = ∑ i ∈ Finset.Ico (j + 1) (g.end_ + 1), pair.pairpot (pat p i) (pat p j) := by
      rw [← Finset.sum_Ico_add' (fun i => pair.pairpot (pat p i) (pat p j)) j g.end_ 1]
      apply Finset.sum_congr rfl
      intro i hi
      have hx := index_eraseIdx p j.toNat i
      rw [cj, if_neg (not_lt.mpr (Finset.mem_Ico.mp hi).1)] at hx
      rw [hsym (pat p (i + 1)) (pat p j)]
      simp only [pat, hx]
    rw [s1, s2]

/-! ## The empty group -/

/-- C9: the engine at the empty group `(-1, -1)` and a one-particle collection.
`energy(p, g, a)` and `internal(p, g)` test `g.beg == -1` and return 0; the other
group operations enter their loop at `i = -1` and read `p[-1]`, outside the vector,
so they return no value. -/
theorem empty_group_reads_outside_vector :
    interaction.energy_group chargeProduct [ion 1] (group.mk (-1) (-1)) = none
      ∧ interaction.energy_group_int chargeProduct [ion 1] (group.mk (-1) (-1)) 0 = none
      ∧ interaction.energy_group_group chargeProduct [ion 1]
          (group.mk (-1) (-1)) (group.mk 0 0) = none
      ∧ interaction.energy_group_group chargeProduct [ion 1]
          (group.mk 0 0) (group.mk (-1) (-1)) = none
      ∧ interaction.energy_group_particle chargeProduct [ion 1]
          (group.mk (-1) (-1)) (ion 1) = some 0
      ∧ interaction.internal chargeProduct [ion 1] (group.mk (-1) (-1)) = some 0 := by
  decide

/-! ## Concrete instances -/

theorem energy_decomposition_witness :
    (∀ a b, chargeProduct.pairpot a b = chargeProduct.pairpot b a)
      ∧ 0 ≤ (group.mk 1 1).beg ∧ (group.mk 1 1).beg ≤ (group.mk 1 1).end_
      ∧ (group.mk 1 1).end_ < (threeIons.length : Int)
      ∧ ∃ e i x c : ℚ,
          interaction.energy chargeProduct threeIons = some e
            ∧ interaction.internal chargeProduct threeIons (group.mk 1 1) = some i
            ∧ interaction.energy_group chargeProduct threeIons (group.mk 1 1) = some x
            ∧ interaction.energy chargeProduct
                (threeIons.take (group.mk 1 1).beg.toNat
                  ++ threeIons.drop ((group.mk 1 1).end_ + 1).toNat) = some c
            ∧ e = i + x + c :=
  ⟨fun a b => mul_comm a.charge b.charge, by decide, by decide, by decide,
    energy_decomposition chargeProduct (fun a b => mul_comm a.charge b.charge) threeIons
      (group.mk 1 1) (by decide) (by decide) (by decide)⟩

theorem energy_int_excludes_self_witness :
    (0 : Int) ≤ 1 ∧ (1 : Int) < (threeIons.length : Int)
      ∧ interaction.energy_int chargeProduct threeIons 1
          = some (chargeProduct.f *
              ∑ k ∈ (Finset.Ico (0 : Int) threeIons.length).erase 1,
                chargeProduct.pairpot (pat threeIons k) (pat threeIons 1)) :=
  ⟨by decide, by decide,
    energy_int_excludes_self chargeProduct threeIons 1 (by decide) (by decide)⟩

theorem energy_group_is_external_sum_witness :
    0 ≤ (group.mk 1 2).beg ∧ (group.mk 1 2).beg ≤ (group.mk 1 2).end_
      ∧ (group.mk 1 2).end_ < (threeIons.length : Int)
      ∧ interaction.energy_group chargeProduct threeIons (group.mk 1 2)
          = some (chargeProduct.f *
              ∑ i ∈ Finset.Icc (group.mk 1 2).beg (group.mk 1 2).end_,
                ∑ j ∈ Finset.Ico (0 : Int) threeIons.length
                    \ Finset.Icc (group.mk 1 2).beg (group.mk 1 2).end_,
                  chargeProduct.pairpot (pat threeIons i) (pat threeIons j)) :=
  ⟨by decide, by decide, by decide,
    energy_group_is_external_sum chargeProduct threeIons (group.mk 1 2)
      (by decide) (by decide) (by decide)⟩

theorem internal_is_pair_sum_inside_group_witness :
    0 ≤ (group.mk 0 1).beg ∧ (group.mk 0 1).beg ≤ (group.mk 0 1).end_
      ∧ (group.mk 0 1).end_ < (threeIons.length : Int)
      ∧ interaction.internal chargeProduct threeIons (group.mk 0 1)
          = some (chargeProduct.f *
              ∑ x ∈ (Finset.Icc (group.mk 0 1).beg (group.mk 0 1).end_
                    ×ˢ Finset.Icc (group.mk 0 1).beg (group.mk 0 1).end_).filter
                  (fun x => x.1 < x.2),
                chargeProduct.pairpot (pat threeIons x.1) (pat threeIons x.2))
      ∧ (group.mk (-1) 5).beg = -1
      ∧ interaction.internal chargeProduct threeIons (group.mk (-1) 5) = some 0 :=
  ⟨by decide, by decide, by decide,
    (internal_is_pair_sum_inside_group chargeProduct threeIons (group.mk 0 1)).1
      (by decide) (by decide) (by decide),
    rfl,
    (internal_is_pair_sum_inside_group chargeProduct threeIons (group.mk (-1) 5)).2 rfl⟩

theorem energy_group_int_sum_witness :
    0 ≤ (group.mk 1 2).beg ∧ (group.mk 1 2).beg ≤ (group.mk 1 2).end_
      ∧ (group.mk 1 2).end_ < (threeIons.length : Int)
      ∧ ((group.mk 1 2).beg ≤ 2 ∧ (2 : Int) ≤ (group.mk 1 2).end_)
      ∧ interaction.energy_group_int chargeProduct threeIons (group.mk 1 2) 2
          = some (chargeProduct.f *
              ∑ i ∈ (Finset.Icc (group.mk 1 2).beg (group.mk 1 2).end_).erase 2,
                chargeProduct.pairpot (pat threeIons i) (pat threeIons 2))
      ∧ ¬ ((group.mk 1 2).beg ≤ 0 ∧ (0 : Int) ≤ (group.mk 1 2).end_)
      ∧ interaction.energy_group_int chargeProduct threeIons (group.mk 1 2) 0
          = some (chargeProduct.f *
              ∑ i ∈ Finset.Icc (group.mk 1 2).beg (group.mk 1 2).end_,
                chargeProduct.pairpot (pat threeIons i) (pat threeIons 0)) :=
  ⟨by decide, by decide, by decide, by decide,
    (energy_group_int_sum chargeProduct threeIons (group.mk 1 2) 2
      (by decide) (by decide) (by decide) (by decide) (by decide)).1 (by decide),
    by decide,
    (energy_group_int_sum chargeProduct threeIons (group.mk 1 2) 0
      (by decide) (by decide) (by decide) (by decide) (by decide)).2 (by decide)⟩

theorem energy_group_group_cross_sum_witness :
    0 ≤ (group.mk 0 0).beg ∧ (group.mk 0 0).beg ≤ (group.mk 0 0).end_
      ∧ (group.mk 0 0).end_ < (threeIons.length : Int)
      ∧ 0 ≤ (group.mk 1 2).beg ∧ (group.mk 1 2).beg ≤ (group.mk 1 2).end_
      ∧ (group.mk 1 2).end_ < (threeIons.length : Int)
      ∧ ((group.mk 0 0).end_ < (group.mk 1 2).beg ∨ (group.mk 1 2).end_ < (group.mk 0 0).beg)
      ∧ interaction.energy_group_group chargeProduct threeIons (group.mk 0 0) (group.mk 1 2)
          = some (chargeProduct.f *
              ∑ x ∈ Finset.Icc (group.mk 0 0).beg (group.mk 0 0).end_
                    ×ˢ Finset.Icc (group.mk 1 2).beg (group.mk 1 2).end_,
                chargeProduct.pairpot (pat threeIons x.1) (pat threeIons x.2)) :=
  ⟨by decide, by decide, by decide, by decide, by decide, by decide, by decide,
    energy_group_group_cross_sum chargeProduct threeIons (group.mk 0 0) (group.mk 1 2)
      (by decide) (by decide) (by decide) (by decide) (by decide) (by decide) (by decide)⟩

theorem energy_group_particle_sum_witness :
    0 ≤ (group.mk 0 1).beg ∧ (group.mk 0 1).beg ≤ (group.mk 0 1).end_
      ∧ (group.mk 0 1).end_ < (threeIons.length : Int)
      ∧ interaction.energy_group_particle chargeProduct threeIons (group.mk 0 1) (ion 5)
          = some (chargeProduct.f *
              ∑ i ∈ Finset.Icc (group.mk 0 1).beg (group.mk 0 1).end_,
                chargeProduct.pairpot (ion 5) (pat threeIons i))
      ∧ (group.mk (-1) (-1)).beg = -1
      ∧ interaction.energy_group_particle chargeProduct threeIons (group.mk (-1) (-1)) (ion 5)
          = some 0 :=
  ⟨by decide, by decide, by decide,
    (energy_group_particle_sum chargeProduct threeIons (group.mk 0 1) (ion 5)).1
      (by decide) (by decide) (by decide),
    rfl,
    (energy_group_particle_sum chargeProduct threeIons (group.mk (-1) (-1)) (ion 5)).2 rfl⟩

theorem energy_group_int_consistent_witness :
    (∀ a b, chargeProduct.pairpot a b = chargeProduct.pairpot b a)
      ∧ 0 ≤ (group.mk 0 1).beg ∧ (group.mk 0 1).beg ≤ (group.mk 0 1).end_
      ∧ (group.mk 0 1).end_ < (threeIons.length : Int)
      ∧ (group.mk 0 1).beg ≤ 1 ∧ (1 : Int) ≤ (group.mk 0 1).end_
      ∧ ∃ v : ℚ,
          interaction.energy_group_int chargeProduct threeIons (group.mk 0 1) 1 = some v
            ∧ interaction.energy_group_particle chargeProduct
                (threeIons.eraseIdx (1 : Int).toNat)
                (if (group.mk 0 1).beg = (group.mk 0 1).end_ then group.mk (-1) (-1)
                  else group.mk (group.mk 0 1).beg ((group.mk 0 1).end_ - 1))
                (pat threeIons 1) = some v :=
  ⟨fun a b => mul_comm a.charge b.charge, by decide, by decide, by decide, by decide,
    by decide,
    energy_group_int_consistent chargeProduct (fun a b => mul_comm a.charge b.charge)
      threeIons (group.mk 0 1) 1 (by decide) (by decide) (by decide) (by decide) (by decide)⟩

/-! ## The periodic cube: rounding and folding -/

theorem tdiv_num_den_of_nonneg (t : ℚ) (h : 0 ≤ t) : t.num.tdiv t.den = ⌊t⌋ := by
  rw [Rat.floor_def, Int.tdiv_eq_ediv (Rat.num_nonneg.mpr h) (Int.natCast_nonneg _)]

theorem tdiv_num_den_of_nonpos (t : ℚ) (h : t ≤ 0) : t.num.tdiv t.den = ⌈t⌉ := by
  have e := tdiv_num_den_of_nonneg (-t) (neg_nonneg.mpr h)
  rw [Rat.neg_num, Rat.neg_den, Int.neg_tdiv, Int.floor_neg] at e
  exact neg_injective e

theorem anint_eq (x : ℚ) :
    box.anint x
      = if fits_int (round_half_away x) = true then some (round_half_away x) else none := by
  unfold box.anint int_cast round_half_away
  by_cases hx : x > 0
  · rw [if_pos hx, if_pos hx, tdiv_num_den_of_nonneg _ (by linarith)]
  · rw [if_neg hx, if_neg hx, tdiv_num_den_of_nonpos _ (by linarith)]

theorem anint_of_fits (x : ℚ) (h : fits_int (round_half_away x) = true) :
    box.anint x = some (round_half_away x) := by
  rw [anint_eq, if_pos h]

theorem round_half_away_near (x : ℚ) :
    -(1 / 2) ≤ x - round_half_away x ∧ x - round_half_away x ≤ 1 / 2 := by
  unfold round_half_away
  by_cases hx : x > 0
  · rw [if_pos hx]
    have h1 := Int.floor_le (x + 1 / 2)
    have h2 := Int.lt_floor_add_one (x + 1 / 2)
    constructor <;> linarith
  · rw [if_neg hx]
    have h1 := Int.le_ceil (x - 1 / 2)
    have h2 := Int.ceil_lt_add_one (x - 1 / 2)
    constructor <;> linarith

theorem round_half_away_of_small (t : ℚ) (h1 : -(1 / 2) < t) (h2 : t < 1 / 2) :
    round_half_away t = 0 := by
  unfold round_half_away
  by_cases ht : t > 0
  · rw [if_pos ht, Int.floor_eq_iff]
    constructor <;> push_cast <;> linarith
  · rw [if_neg ht, Int.ceil_eq_iff]
    constructor <;> push_cast <;> linarith

theorem boundary_of_fits (b : box) (p : point)
    (hx : fits_int (round_half_away (p.x * b.len_inv)) = true)
    (hy : fits_int (round_half_away (p.y * b.len_inv)) = true)
    (hz : fits_int (round_half_away (p.z * b.len_inv)) = true) :
    b.boundary p
      = some ⟨p.x - b.len * round_half_away (p.x * b.len_inv),
          p.y - b.len * round_half_away (p.y * b.len_inv),
          p.z - b.len * round_half_away (p.z * b.len_inv)⟩ := by
  unfold box.boundary
  rw [anint_of_fits _ hx, anint_of_fits _ hy, anint_of_fits _ hz]
  rfl

/-- The folded coordinate, scaled by `1/len`, is the scaled coordinate minus its
rounded value. -/
theorem folded_scaled (len x : ℚ) (hlen : 0 < len) (n : Int) :
    (x - len * n) * (1 / len) = x * (1 / len) - n := by
  field_simp

theorem fold_coord_stable (len x : ℚ) (hlen : 0 < len)
    (hodd : ∀ k : Int, x ≠ (2 * (k : ℚ) + 1) * (len / 2)) :
    round_half_away ((x - len * round_half_away (x * (1 / len))) * (1 / len)) = 0 := by
  rw [folded_scaled len x hlen]
  have hne : len ≠ 0 := ne_of_gt hlen
  have hx : x = len * (x * (1 / len)) := by field_simp
  have hnear := round_half_away_near (x * (1 / len))
  generalize round_half_away (x * (1 / len)) = r at hnear ⊢
  apply round_half_away_of_small
  · apply lt_of_le_of_ne hnear.1
    intro h
    apply hodd (r - 1)
    have e : x * (1 / len) = r - 1 / 2 := by linarith
    calc x = len * (x * (1 / len)) := hx
      _ = len * (r - 1 / 2) := by rw [e]
      _ = (2 * ((r - 1 : Int) : ℚ) + 1) * (len / 2) := by push_cast; ring
  · apply lt_of_le_of_ne hnear.2
    intro h
    apply hodd r
    have e : x * (1 / len) = r + 1 / 2 := by linarith
    calc x = len * (x * (1 / len)) := hx
      _ = len * (r + 1 / 2) := by rw [e]
      _ = (2 * (r : ℚ) + 1) * (len / 2) := by ring

/-- C11 (as stated, refuted): in the cube of side 2 the point `(1, 0, 0)`, whose
x coordinate is `len/2`, folds to `(-1, 0, 0)`, and folding again gives back
`(1, 0, 0)`: the second application is not a no-op. -/
theorem boundary_twice_differs_at_half_cell :
    cubeOfSideTwo.len_inv = 1 / cubeOfSideTwo.len
      ∧ box.boundary cubeOfSideTwo ⟨1, 0, 0⟩ = some ⟨-1, 0, 0⟩
      ∧ box.boundary cubeOfSideTwo ⟨-1, 0, 0⟩ = some ⟨1, 0, 0⟩
      ∧ (⟨1, 0, 0⟩ : point) ≠ ⟨-1, 0, 0⟩ := by
  decide!

/-- C11 (amended): for a cube with `len > 0` and `len_inv = 1/len` and a point within
integer-conversion range none of whose coordinates is an odd multiple of `len/2`,
`boundary` returns a point on which a second `boundary` changes nothing. -/
theorem boundary_idempotent_off_half_cell (b : box) (p : point)
    (hlen : 0 < b.len) (hinv : b.len_inv = 1 / b.len)
    (hx : fits_int (round_half_away (p.x * b.len_inv)) = true)
    (hy : fits_int (round_half_away (p.y * b.len_inv)) = true)
    (hz : fits_int (round_half_away (p.z * b.len_inv)) = true)
    (ox : ∀ k : Int, p.x ≠ (2 * (k : ℚ) + 1) * (b.len / 2))
    (oy : ∀ k : Int, p.y ≠ (2 * (k : ℚ) + 1) * (b.len / 2))
    (oz : ∀ k : Int, p.z ≠ (2 * (k : ℚ) + 1) * (b.len / 2)) :
    ∃ q : point, b.boundary p = some q ∧ b.boundary q = some q := by
  refine ⟨_, boundary_of_fits b p hx hy hz, ?_⟩
  have sx := fold_coord_stable b.len p.x hlen ox
  have sy := fold_coord_stable b.len p.y hlen oy
  have sz := fold_coord_stable b.len p.z hlen oz
  rw [← hinv] at sx sy sz
  rw [boundary_of_fits b _ (by rw [sx]; rfl) (by rw [sy]; rfl) (by rw [sz]; rfl)]
  simp only [sx, sy, sz]
  simp

theorem boundary_idempotent_off_half_cell_witness :
    0 < cubeOfSideTwo.len ∧ cubeOfSideTwo.len_inv = 1 / cubeOfSideTwo.len
      ∧ ∃ q : point, cubeOfSideTwo.boundary ⟨10, 0, 0⟩ = some q
          ∧ cubeOfSideTwo.boundary q = some q :=
  ⟨by decide!, by decide!,
    boundary_idempotent_off_half_cell cubeOfSideTwo ⟨10, 0, 0⟩ (by decide!) (by decide!)
      (by decide!) (by decide!) (by decide!)
      (fun k h => by
        have h2 : (10 : ℚ) = ((2 * k + 1 : Int) : ℚ) := by
          push_cast
          simpa [cubeOfSideTwo] using h
        have h3 : (10 : Int) = 2 * k + 1 := by exact_mod_cast h2
        omega)
      (fun k h => by
        have h2 : (0 : ℚ) = ((2 * k + 1 : Int) : ℚ) := by
          push_cast
          simpa [cubeOfSideTwo] using h
        have h3 : (0 : Int) = 2 * k + 1 := by exact_mod_cast h2
        omega)
      (fun k h => by
        have h2 : (0 : ℚ) = ((2 * k + 1 : Int) : ℚ) := by
          push_cast
          simpa [cubeOfSideTwo] using h
        have h3 : (0 : Int) = 2 * k + 1 := by exact_mod_cast h2
        omega)⟩

theorem fold_coord_bound (len x : ℚ) (hlen : 0 < len) :
    |x - len * round_half_away (x * (1 / len))| ≤ len / 2 := by
  have hne : len ≠ 0 := ne_of_gt hlen
  have hx : x = len * (x * (1 / len)) := by field_simp
  have hnear := round_half_away_near (x * (1 / len))
  generalize round_half_away (x * (1 / len)) = r at hnear ⊢
  have e : x - len * r = len * (x * (1 / len) - r) := by
    rw [mul_sub, ← hx]
  rw [e, abs_le]
  constructor
  · have := mul_le_mul_of_nonneg_left hnear.1 (le_of_lt hlen)
    linarith
  · have := mul_le_mul_of_nonneg_left hnear.2 (le_of_lt hlen)
    linarith

/-- C12 (as stated, refuted): in double arithmetic, in the cube of side 50 the point
`(25 - 2^-48, 0, 0)` is a double inside the cell (`collision` is false); `x * len_inv`
rounds to `0.5 - 2^-54`, adding `.5` rounds to 1, and `boundary` moves the point to
`(-25 - 2^-48, 0, 0)`, outside the cell: `collision` of the folded point is true. -/
theorem boundary_binary64_leaves_primary_cell :
    0 < cubeOfSideFifty.len
      ∧ cubeOfSideFifty.len_half = cubeOfSideFifty.len / 2
      ∧ cubeOfSideFifty.len_inv = binary64 (1 / cubeOfSideFifty.len)
      ∧ binary64 nearFace.x = nearFace.x
      ∧ cubeOfSideFifty.collision nearFace = false
      ∧ binary64 (nearFace.x * cubeOfSideFifty.len_inv)
          = 1 / 2 - 1 / 18014398509481984
      ∧ cubeOfSideFifty.boundary_binary64 nearFace
          = some ⟨-25 - 1 / 281474976710656, 0, 0⟩
      ∧ cubeOfSideFifty.collision ⟨-25 - 1 / 281474976710656, 0, 0⟩ = true := by
  decide!

/-- C12 (amended): in exact arithmetic, for a cube with `len > 0`, `len_half = len/2`,
`len_inv = 1/len` and a point within integer-conversion range, `boundary` returns a point each of whose coordinates
differs from the original by an integer multiple of `len` and has absolute value at
most `len/2`, so `collision` of the folded point is false. -/
theorem boundary_lands_in_primary_cell (b : box) (p : point)
    (hlen : 0 < b.len) (hhalf : b.len_half = b.len / 2) (hinv : b.len_inv = 1 / b.len)
    (hx : fits_int (round_half_away (p.x * b.len_inv)) = true)
    (hy : fits_int (round_half_away (p.y * b.len_inv)) = true)
    (hz : fits_int (round_half_away (p.z * b.len_inv)) = true) :
    ∃ q : point, b.boundary p = some q
      ∧ (∃ kx ky kz : Int,
          q.x = p.x - b.len * kx ∧ q.y = p.y - b.len * ky ∧ q.z = p.z - b.len * kz)
      ∧ |q.x| ≤ b.len / 2 ∧ |q.y| ≤ b.len / 2 ∧ |q.z| ≤ b.len / 2
      ∧ b.collision q = false := by
  have bx := fold_coord_bound b.len p.x hlen
  have bY := fold_coord_bound b.len p.y hlen
  have bz := fold_coord_bound b.len p.z hlen
  rw [← hinv] at bx bY bz
  refine ⟨_, boundary_of_fits b p hx hy hz, ⟨_, _, _, rfl, rfl, rfl⟩, bx, bY, bz, ?_⟩
  unfold box.collision
  rw [hhalf, if_neg]
  push_neg
  exact ⟨bx, bY, bz⟩

theorem boundary_lands_in_primary_cell_witness :
    0 < cubeOfSideTwo.len ∧ cubeOfSideTwo.len_half = cubeOfSideTwo.len / 2
      ∧ cubeOfSideTwo.len_inv = 1 / cubeOfSideTwo.len
      ∧ ∃ q : point, cubeOfSideTwo.boundary ⟨10, 1, -7 / 2⟩ = some q
          ∧ (∃ kx ky kz : Int,
              q.x = 10 - cubeOfSideTwo.len * kx ∧ q.y = 1 - cubeOfSideTwo.len * ky
                ∧ q.z = -7 / 2 - cubeOfSideTwo.len * kz)
          ∧ |q.x| ≤ cubeOfSideTwo.len / 2 ∧ |q.y| ≤ cubeOfSideTwo.len / 2
          ∧ |q.z| ≤ cubeOfSideTwo.len / 2
          ∧ cubeOfSideTwo.collision q = false :=
  ⟨by decide!, by decide!, by decide!,
    boundary_lands_in_primary_cell cubeOfSideTwo ⟨10, 1, -7 / 2⟩ (by decide!) (by decide!)
      (by decide!) (by decide!) (by decide!) (by decide!)⟩

/-- C13: whenever the rounded value fits in an `int`, `anint(x)`, the truncation of
`x + 0.5` for `x > 0` and of `x - 0.5` otherwise, is the spec's round half away from
zero, `floor(x + 0.5)` for `x > 0` and `ceil(x - 0.5)` otherwise; and `boundary`
subtracts `len` times that rounding of `coord * len_inv` on each of the three axes
separately. -/
theorem anint_rounds_half_away_from_zero :
    (∀ x : ℚ, fits_int (round_half_away x) = true →
        box.anint x = some (round_half_away x))
      ∧ (∀ x : ℚ, round_half_away x = if x > 0 then ⌊x + 1 / 2⌋ else ⌈x - 1 / 2⌉)
      ∧ (∀ (b : box) (p : point),
          fits_int (round_half_away (p.x * b.len_inv)) = true →
          fits_int (round_half_away (p.y * b.len_inv)) = true →
          fits_int (round_half_away (p.z * b.len_inv)) = true →
          b.boundary p
            = some ⟨p.x - b.len * round_half_away (p.x * b.len_inv),
                p.y - b.len * round_half_away (p.y * b.len_inv),
                p.z - b.len * round_half_away (p.z * b.len_inv)⟩) :=
  ⟨anint_of_fits, fun _ => rfl, boundary_of_fits⟩

theorem anint_rounds_half_away_from_zero_witness :
    fits_int (round_half_away (5 / 2)) = true
      ∧ box.anint (5 / 2) = some (round_half_away (5 / 2))
      ∧ fits_int (round_half_away (-5 / 2)) = true
      ∧ box.anint (-5 / 2) = some (round_half_away (-5 / 2))
      ∧ cubeOfSideTwo.boundary ⟨10, 1, -7 / 2⟩
          = some ⟨10 - cubeOfSideTwo.len * round_half_away (10 * cubeOfSideTwo.len_inv),
              1 - cubeOfSideTwo.len * round_half_away (1 * cubeOfSideTwo.len_inv),
              -7 / 2 - cubeOfSideTwo.len * round_half_away (-7 / 2 * cubeOfSideTwo.len_inv)⟩ :=
  ⟨by decide!, anint_rounds_half_away_from_zero.1 (5 / 2) (by decide!),
    by decide!, anint_rounds_half_away_from_zero.1 (-5 / 2) (by decide!),
    anint_rounds_half_away_from_zero.2.2 cubeOfSideTwo ⟨10, 1, -7 / 2⟩
      (by decide!) (by decide!) (by decide!)⟩

/-! ## The cell centre -/

/-- C14 (as stated, refuted): a clutch with `r2 = 1`, `zmin = -1 < zmax = 1` reports a
collision for the point at the origin, which lies in the excluded disc. -/
theorem clutch_centre_collides :
    (0 : ℚ) < (clutch.mk 1 (-1) 1).r2
      ∧ (clutch.mk 1 (-1) 1).zmin < (clutch.mk 1 (-1) 1).zmax
      ∧ (clutch.mk 1 (-1) 1).collision origin = true := by
  decide!

/-- C14 (amended): the origin never collides with a spherical cell with `r2 > 0`, a
periodic box with `len_half > 0` or a cylinder with `r2 > 0` and `len > 0`; with a
clutch with `r2 > 0` and `zmin < zmax` it collides exactly when `zmin < 0 < zmax`. -/
theorem centre_collision :
    (∀ c : cell, 0 < c.r2 → c.collision origin = false)
      ∧ (∀ b : box, 0 < b.len_half → b.collision origin = false)
      ∧ (∀ c : cylinder, 0 < c.r2 → 0 < c.len → c.collision origin = false)
      ∧ (∀ c : clutch, 0 < c.r2 → c.zmin < c.zmax →
          (c.collision origin = true ↔ c.zmin < 0 ∧ 0 < c.zmax)) := by
  refine ⟨?_, ?_, ?_, ?_⟩
  · intro c h
    simp [cell.collision, origin, le_of_lt h]
  · intro b h
    simp [box.collision, origin, le_of_lt h]
  · intro c h1 h2
    simp [cylinder.collision, origin, le_of_lt h1, le_of_lt h2]
  · intro c h1 _
    simp only [clutch.collision, origin]
    by_cases hz : (0 : ℚ) < c.zmax ∧ (0 : ℚ) > c.zmin
    · simp [hz.1, hz.2]
    · rw [if_neg hz]
      have h0 : ¬ ((0 : ℚ) * 0 + 0 * 0 + 0 * 0 > c.r2) := by
        simp only [mul_zero, add_zero]
        exact not_lt.mpr (le_of_lt h1)
      rw [if_neg h0]
      simp only [Bool.false_eq_true, false_iff]
      intro h
      exact hz ⟨h.2, h.1⟩

theorem centre_collision_witness :
    (0 : ℚ) < (cell.mk 4).r2 ∧ (cell.mk 4).collision origin = false
      ∧ 0 < cubeOfSideTwo.len_half ∧ cubeOfSideTwo.collision origin = false
      ∧ (0 : ℚ) < (cylinder.mk 3 4).r2 ∧ (0 : ℚ) < (cylinder.mk 3 4).len
      ∧ (cylinder.mk 3 4).collision origin = false
      ∧ (0 : ℚ) < (clutch.mk 9 1 2).r2 ∧ (clutch.mk 9 1 2).zmin < (clutch.mk 9 1 2).zmax
      ∧ ((clutch.mk 9 1 2).collision origin = true
          ↔ (clutch.mk 9 1 2).zmin < 0 ∧ 0 < (clutch.mk 9 1 2).zmax) :=
  ⟨by decide!, centre_collision.1 (cell.mk 4) (by decide!),
    by decide!, centre_collision.2.1 cubeOfSideTwo (by decide!),
    by decide!, by decide!,
    centre_collision.2.2.1 (cylinder.mk 3 4) (by decide!) (by decide!),
    by decide!, by decide!,
    centre_collision.2.2.2 (clutch.mk 9 1 2) (by decide!) (by decide!)⟩

/-! ## Work splitting -/

theorem wrap_int_of_fits (n : Int) (h0 : -2147483648 ≤ n) (h1 : n ≤ 2147483647) :
    wrap_int n = n := by
  unfold wrap_int
  omega

theorem splitEven_eq (N M i : Int) (hN : 0 ≤ N) (hM : 1 ≤ M) (hfit : N * M ≤ 2147483647)
    (hi : 0 ≤ i) (hiM : i < M) :
    MPI.splitEven M i N = (N * i / M, N * (i + 1) / M - 1) := by
  have hpos : 0 < M := by omega
  have h1 : 0 ≤ N * i := mul_nonneg hN hi
  have h2 : 0 ≤ N * i + N := by linarith
  have e : N * i + N = N * (i + 1) := by ring
  have b1 : N * i ≤ N * M := mul_le_mul_of_nonneg_left (by omega) hN
  have b2 : N * (i + 1) ≤ N * M := mul_le_mul_of_nonneg_left (by omega) hN
  have w1 : wrap_int (N * i) = N * i := wrap_int_of_fits _ (by omega) (by omega)
  have w2 : wrap_int (N * i + N) = N * i + N := wrap_int_of_fits _ (by omega) (by omega)
  have q0 : 0 ≤ N * (i + 1) / M := Int.ediv_nonneg (by omega) (by omega)
  have q1 : N * (i + 1) / M ≤ N * (i + 1) := Int.ediv_le_self _ (by omega)
  have w3 : wrap_int (N * (i + 1) / M - 1) = N * (i + 1) / M - 1 :=
    wrap_int_of_fits _ (by omega) (by omega)
  simp only [MPI.splitEven]
  rw [w1, w2, Int.tdiv_eq_ediv h1 (by omega), Int.tdiv_eq_ediv h2 (by omega), e, w3]

theorem split_start_mono (N M : Int) (hN : 0 ≤ N) (hM : 1 ≤ M) {i j : Int} (hij : i ≤ j) :
    N * i / M ≤ N * j / M :=
  Int.ediv_le_ediv (by omega) (mul_le_mul_of_nonneg_left hij hN)

theorem split_size_bounds (N M i : Int) (hM : 1 ≤ M) :
    N / M ≤ N * (i + 1) / M - N * i / M ∧ N * (i + 1) / M - N * i / M ≤ N / M + 1 := by
  have hpos : 0 < M := by omega
  have hne : M ≠ 0 := by omega
  have a1 := Int.ediv_mul_le (N * i) hne
  have a2 := Int.lt_ediv_add_one_mul_self (N * i) hpos
  have b1 := Int.ediv_mul_le N hne
  have b2 := Int.lt_ediv_add_one_mul_self N hpos
  constructor
  · have h : N * i / M + N / M ≤ N * (i + 1) / M := by
      rw [Int.le_ediv_iff_mul_le hpos]
      nlinarith
    omega
  · have h : N * (i + 1) / M < N * i / M + N / M + 2 := by
      rw [Int.ediv_lt_iff_lt_mul hpos]
      nlinarith
    omega

/-- C19 (as stated, refuted): with `N = 10^9` items on `M = 3` ranks the sum
`N*i + N = 3·10^9` of rank 2 is not a 32-bit `int`; it wraps to a negative number and
the range returned for the last rank is `[666666666, -431655766]` instead of ending at
`N - 1 = 999999999`. -/
theorem splitEven_overflows_int :
    (0 : Int) ≤ 1000000000 ∧ (1 : Int) ≤ 3
      ∧ MPI.splitEven 3 2 1000000000 = (666666666, -431655766)
      ∧ (MPI.splitEven 3 (3 - 1) 1000000000).2 ≠ 1000000000 - 1 := by
  decide

/-- C19 (amended): for every item count `N ≥ 0` and rank count `M ≥ 1` whose product
`N*M` is a 32-bit `int` (`N*M ≤ 2^31 - 1`), the ranges
`[beg_i, end_i]` returned by `splitEven` for the ranks `i = 0 .. M-1` start at 0, are
consecutive (`beg_{i+1} = end_i + 1`), end at `N - 1`, so every item `0 ≤ k < N` lies in
the range of exactly one rank, and the sizes of any two ranges differ by at most
one. -/
theorem splitEven_partitions_evenly (N M : Int) (hN : 0 ≤ N) (hM : 1 ≤ M)
    (hfit : N * M ≤ 2147483647) :
    (MPI.splitEven M 0 N).1 = 0
      ∧ (∀ i : Int, 0 ≤ i → i + 1 < M →
          (MPI.splitEven M (i + 1) N).1 = (MPI.splitEven M i N).2 + 1)
      ∧ (MPI.splitEven M (M - 1) N).2 = N - 1
      ∧ (∀ i : Int, 0 ≤ i → i < M → (MPI.splitEven M i N).1 ≤ (MPI.splitEven M i N).2 + 1)
      ∧ (∀ k : Int, 0 ≤ k → k < N →
          ∃! i : Int, (0 ≤ i ∧ i < M)
            ∧ (MPI.splitEven M i N).1 ≤ k ∧ k ≤ (MPI.splitEven M i N).2)
      ∧ (∀ i j : Int, 0 ≤ i → i < M → 0 ≤ j → j < M →
          |((MPI.splitEven M i N).2 - (MPI.splitEven M i N).1 + 1)
            - ((MPI.splitEven M j N).2 - (MPI.splitEven M j N).1 + 1)| ≤ 1) := by
  have hpos : 0 < M := by omega
  have hne : M ≠ 0 := by omega
  refine ⟨?_, ?_, ?_, ?_, ?_, ?_⟩
  · rw [splitEven_eq N M 0 hN hM hfit le_rfl (by omega)]
    simp
  · intro i hi hi1
    rw [splitEven_eq N M (i + 1) hN hM hfit (by omega) hi1,
      splitEven_eq N M i hN hM hfit hi (by omega)]
    simp
  · rw [splitEven_eq N M (M - 1) hN hM hfit (by omega) (by omega)]
    have e : N * (M - 1 + 1) = N * M := by ring
    simp only [e, Int.mul_ediv_cancel N hne]
  · intro i hi hi1
    rw [splitEven_eq N M i hN hM hfit hi hi1]
    have := split_start_mono N M hN hM (show i ≤ i + 1 by omega)
    simp only
    omega
  · intro k hk0 hkN
    have hNpos : 0 < N := by omega
    have hNne : N ≠ 0 := by omega
    have c1 := Int.mul_ediv_self_le (x := (k + 1) * M - 1) hNne
    have c2 := Int.lt_ediv_add_one_mul_self ((k + 1) * M - 1) hNpos
    have hi0 : 0 ≤ ((k + 1) * M - 1) / N :=
      Int.ediv_nonneg (by nlinarith) (le_of_lt hNpos)
    have hiM : ((k + 1) * M - 1) / N < M := by
      rw [Int.ediv_lt_iff_lt_mul hNpos]
      nlinarith
    refine ⟨((k + 1) * M - 1) / N, ⟨⟨hi0, hiM⟩, ?_, ?_⟩, ?_⟩
    · rw [splitEven_eq N M _ hN hM hfit hi0 hiM]
      have h : N * (((k + 1) * M - 1) / N) / M < k + 1 := by
        rw [Int.ediv_lt_iff_lt_mul hpos]
        linarith
      simp only
      omega
    · rw [splitEven_eq N M _ hN hM hfit hi0 hiM]
      have h : k + 1 ≤ N * (((k + 1) * M - 1) / N + 1) / M := by
        rw [Int.le_ediv_iff_mul_le hpos]
        nlinarith
      simp only
      omega
    · rintro j ⟨⟨hj0, hjM⟩, hj1, hj2⟩
      rw [splitEven_eq N M j hN hM hfit hj0 hjM] at hj1 hj2
      simp only at hj1 hj2
      have h1 : N * j / M < k + 1 := by omega
      have h2 : k + 1 ≤ N * (j + 1) / M := by omega
      rw [Int.ediv_lt_iff_lt_mul hpos] at h1
      rw [Int.le_ediv_iff_mul_le hpos] at h2
      apply le_antisymm
      · rw [Int.le_ediv_iff_mul_le hNpos]
        nlinarith
      · have : ((k + 1) * M - 1) / N < j + 1 := by
          rw [Int.ediv_lt_iff_lt_mul hNpos]
          nlinarith
        omega
  · intro i j hi hi1 hj hj1
    rw [splitEven_eq N M i hN hM hfit hi hi1, splitEven_eq N M j hN hM hfit hj hj1]
    have bi := split_size_bounds N M i hM
    have bj := split_size_bounds N M j hM
    simp only
    rw [abs_le]
    constructor <;> omega

theorem splitEven_partitions_evenly_witness :
    (0 : Int) ≤ 10 ∧ (1 : Int) ≤ 3 ∧ (10 : Int) * 3 ≤ 2147483647
      ∧ MPI.splitEven 3 0 10 = (0, 2) ∧ MPI.splitEven 3 1 10 = (3, 5)
      ∧ MPI.splitEven 3 2 10 = (6, 9)
      ∧ (MPI.splitEven 3 (3 - 1) 10).2 = 10 - 1 :=
  ⟨by decide, by decide, by decide, by decide, by decide, by decide,
    (splitEven_partitions_evenly 10 3 (by decide) (by decide) (by decide)).2.2.1⟩

/-! ## Loops over a list -/

theorem iterate_succ_last {σ : Type} (body : Int → σ → Option σ) :
    ∀ (n : Nat) (a : Int) (s : σ),
      iterate body (n + 1) a s = (iterate body n a s).bind (body (a + n)) := by
  intro n
  induction n with
  | zero =>
    intro a s
    simp [iterate]
  | succ n ih =>
    intro a s
    rw [iterate]
    cases h : body a s with
    | none => simp [iterate, h]
    | some s1 =>
      have e : a + ((n + 1 : Nat) : Int) = a + 1 + (n : Int) := by push_cast; ring
      rw [Option.some_bind, ih (a + 1) s1, e]
      conv_rhs => rw [iterate, h, Option.some_bind]

theorem index_us_append (front back : List Nat) (x : Nat) :
    index_us (front ++ x :: back) (front.length : Int) = some x := by
  have h : (front ++ x :: back)[front.length]? = some x := by
    rw [List.getElem?_append_right (le_refl _)]
    simp
  simp [index_us, h]

theorem iterate_over_list {σ : Type} (step : Nat → σ → Option σ) :
    ∀ (l front : List Nat) (s : σ),
      iterate (fun j st => do
          let h ← index_us (front ++ l) j
          step h st) l.length (front.length : Int) s
        = l.foldlM (fun st h => step h st) s := by
  intro l
  induction l with
  | nil => intro front s; simp [iterate]
  | cons x l ih =>
    intro front s
    have e : front ++ x :: l = (front ++ [x]) ++ l := by simp
    have e2 : ((front.length : Nat) : Int) + 1 = (((front ++ [x]).length : Nat) : Int) := by
      simp
    rw [List.length_cons, iterate, index_us_append, List.foldlM_cons]
    simp only [Option.bind_eq_bind, Option.some_bind]
    cases step x s with
    | none => rfl
    | some s1 =>
      simp only [Option.some_bind]
      rw [e, e2]
      exact ih (front ++ [x]) s1

theorem forLoop_over_list {σ : Type} (step : Nat → σ → Option σ) (l : List Nat) (s : σ) :
    forLoop 0 (l.length : Int) (fun j st => do
        let h ← index_us l j
        step h st) s
      = l.foldlM (fun st h => step h st) s := by
  have h := iterate_over_list step l [] s
  simp only [List.nil_append, List.length_nil, Nat.cast_zero] at h
  unfold forLoop
  simpa using h

/-! ## The lists built by `search` -/

theorem search_prefix (ids : species) (p : List particle) (hsize : p.length ≤ 65536) :
    ∀ n : Nat, n ≤ p.length →
      iterate (fun (i : Int) (st : List Nat × List Nat) => do
          let a ← index p i
          if a.hydrophobic = true then
            pure (st.1 ++ [i.toNat % 65536], st.2)
          else if a.id = ids.NA ∨ a.id = ids.CL ∨ a.id = ids.I then
            pure (st.1, st.2 ++ [i.toNat % 65536])
          else
            pure st) n 0 (([] : List Nat), ([] : List Nat))
        = some ((List.range n).filter (fun i : Nat => (pat p (i : Int)).hydrophobic),
            (List.range n).filter (fun i : Nat => !(pat p (i : Int)).hydrophobic
              && (decide ((pat p (i : Int)).id = ids.NA)
                || decide ((pat p (i : Int)).id = ids.CL)
                || decide ((pat p (i : Int)).id = ids.I)))) := by
  intro n
  induction n with
  | zero => intro _; simp [iterate]
  | succ n ih =>
    intro hn
    have hidx : index p (n : Int) = some (pat p (n : Int)) :=
      index_eq p (by omega) (by omega)
    have hmod : n % 65536 = n := Nat.mod_eq_of_lt (by omega)
    rw [iterate_succ_last, ih (by omega), Option.some_bind, zero_add, hidx]
    simp only [Option.bind_eq_bind, Option.some_bind, Int.toNat_ofNat, hmod,
      List.range_succ, List.filter_append]
    by_cases hh : (pat p (n : Int)).hydrophobic = true
    · simp [hh]
    · by_cases hid : (pat p (n : Int)).id = ids.NA ∨ (pat p (n : Int)).id = ids.CL
          ∨ (pat p (n : Int)).id = ids.I
      · rw [if_neg hh, if_pos hid]
        have hb : (pat p (n : Int)).hydrophobic = false := by simpa using hh
        have hd : (decide ((pat p (n : Int)).id = ids.NA)
            || decide ((pat p (n : Int)).id = ids.CL)
            || decide ((pat p (n : Int)).id = ids.I)) = true := by
          simpa [or_assoc] using hid
        simp [hb, hd, List.filter_cons]
      · rw [if_neg hh, if_neg hid]
        have hb : (pat p (n : Int)).hydrophobic = false := by simpa using hh
        have hd : (decide ((pat p (n : Int)).id = ids.NA)
            || decide ((pat p (n : Int)).id = ids.CL)
            || decide ((pat p (n : Int)).id = ids.I)) = false := by
          simpa [and_assoc] using hid
        simp [hb, hd, List.filter_cons]

/-- C20 (as stated, refuted): for a single hydrophobic particle of species NA, `search`
leaves the probe list empty, although index 0 has species id NA. -/
theorem search_skips_hydrophobic_ions :
    (pat hydrophobicSodium 0).id = someSpecies.NA
      ∧ (int_hydrophobic.search someSpecies (int_hydrophobic.init someHyPotential)
            hydrophobicSodium).map (fun s => (s.hy, s.pa))
          = some ([0], []) := by
  decide!

/-- C20 (amended): for every collection of at most 65536 particles, and whatever the two
lists held before, `search(p)` succeeds and leaves `hy` equal to the ascending list of all
indices whose particle is hydrophobic, and `pa` equal to the ascending list of all
indices whose particle is not hydrophobic and has species id NA, CL or I; the pair
potential and `end_of_protein_one` are unchanged. -/
theorem search_lists (ids : species) (s : int_hydrophobic) (p : List particle)
    (hsize : p.length ≤ 65536) :
    int_hydrophobic.search ids s p
      = some ⟨s.pair,
          (List.range p.length).filter (fun i : Nat => (pat p (i : Int)).hydrophobic),
          (List.range p.length).filter (fun i : Nat => !(pat p (i : Int)).hydrophobic
            && (decide ((pat p (i : Int)).id = ids.NA)
              || decide ((pat p (i : Int)).id = ids.CL)
              || decide ((pat p (i : Int)).id = ids.I))),
          s.end_of_protein_one⟩ := by
  unfold int_hydrophobic.search forLoop
  have h := search_prefix ids p hsize p.length le_rfl
  simp only [sub_zero, Int.toNat_ofNat]
  rw [h]
  rfl

theorem search_lists_witness :
    hydrophobicSodium.length ≤ 65536
      ∧ int_hydrophobic.search someSpecies ⟨someHyPotential, [7, 8], [9], 5⟩ hydrophobicSodium
        = some ⟨someHyPotential,
            (List.range hydrophobicSodium.length).filter
              (fun i : Nat => (pat hydrophobicSodium (i : Int)).hydrophobic),
            (List.range hydrophobicSodium.length).filter
              (fun i : Nat => !(pat hydrophobicSodium (i : Int)).hydrophobic
                && (decide ((pat hydrophobicSodium (i : Int)).id = someSpecies.NA)
                  || decide ((pat hydrophobicSodium (i : Int)).id = someSpecies.CL)
                  || decide ((pat hydrophobicSodium (i : Int)).id = someSpecies.I))),
            5⟩ :=
  ⟨by decide, search_lists someSpecies ⟨someHyPotential, [7, 8], [9], 5⟩ hydrophobicSodium
    (by decide)⟩

/-! ## The electric potential at a particle -/

/-- C15: `potential(p, j)` at two particles of charge 1 at distance 1, with scale factor
`pair.f = 2`. The function returns the bare sum 1, while `pot` at the position of `p[0]`
over the collection without particle 0 returns `pair.f` times that sum, 2; with a
zero charge at index 0 the function returns 0. -/
theorem potential_omits_scale_factor :
    chargeProduct.f = 2
      ∧ interaction.potential sqrtExact chargeProduct twoOnAxis 0 = some 1
      ∧ interaction.pot sqrtExact chargeProduct (twoOnAxis.eraseIdx 0) (pat twoOnAxis 0).pos
          = some 2
      ∧ interaction.potential sqrtExact chargeProduct
          [onAxis 0 0 0 false, onAxis 1 1 0 false] 0 = some 0 := by
  decide!

/-! ## The nearest hydrophobic neighbour -/

theorem hystep_first_segment (sqrt : ℚ → ℚ) (s : int_hydrophobic) (p : List particle)
    (a : particle) (h : Nat) (st : hystate)
    (hseg : h ≤ s.end_of_protein_one) (hval : h < p.length) :
    int_hydrophobic.hystep sqrt s p a h st
      = some (if a.pos.sqdist (pat p (h : Int)).pos < st.dmin
          then hystate.mk st.u (a.pos.sqdist (pat p (h : Int)).pos) (some h) else st) := by
  have hidx : index p (h : Int) = some (pat p (h : Int)) := index_eq p (by omega) (by omega)
  unfold int_hydrophobic.hystep
  rw [if_neg (not_lt.mpr hseg), hidx]
  simp only [Option.bind_eq_bind, Option.some_bind, Option.pure_def]
  split <;> rfl

theorem scan_keeps_state (sqrt : ℚ → ℚ) (s : int_hydrophobic) (p : List particle)
    (a : particle) :
    ∀ (l : List Nat) (st : hystate),
      (∀ h ∈ l, h ≤ s.end_of_protein_one ∧ h < p.length
        ∧ st.dmin ≤ a.pos.sqdist (pat p (h : Int)).pos) →
      l.foldlM (fun st h => int_hydrophobic.hystep sqrt s p a h st) st = some st := by
  intro l
  induction l with
  | nil => intro st _; rfl
  | cons x l ih =>
    intro st hall
    have hx := hall x (List.mem_cons_self x l)
    rw [List.foldlM_cons, hystep_first_segment sqrt s p a x st hx.1 hx.2.1,
      if_neg (not_lt.mpr hx.2.2)]
    exact ih st (fun h hh => hall h (List.mem_cons_of_mem x hh))

theorem scan_stays_above (sqrt : ℚ → ℚ) (s : int_hydrophobic) (p : List particle)
    (a : particle) (c : ℚ) :
    ∀ (l : List Nat) (st : hystate),
      (∀ h ∈ l, h ≤ s.end_of_protein_one ∧ h < p.length
        ∧ c < a.pos.sqdist (pat p (h : Int)).pos) →
      c < st.dmin →
      ∃ st1 : hystate,
        l.foldlM (fun st h => int_hydrophobic.hystep sqrt s p a h st) st = some st1
          ∧ c < st1.dmin ∧ st1.u = st.u := by
  intro l
  induction l with
  | nil => intro st _ hc; exact ⟨st, rfl, hc, rfl⟩
  | cons x l ih =>
    intro st hall hc
    have hx := hall x (List.mem_cons_self x l)
    rw [List.foldlM_cons, hystep_first_segment sqrt s p a x st hx.1 hx.2.1]
    by_cases hd : a.pos.sqdist (pat p (x : Int)).pos < st.dmin
    · rw [if_pos hd]
      exact ih _ (fun h hh => hall h (List.mem_cons_of_mem x hh)) hx.2.2
    · rw [if_neg hd]
      exact ih st (fun h hh => hall h (List.mem_cons_of_mem x hh)) hc

/-- C16: nearest hydrophobic neighbour only. Let `p[i] = a` be a non-hydrophobic probe and
let the hydrophobic list consist of valid indices, all `≤ end_of_protein_one`. If `m` is
the first entry with the smallest squared distance to `a` (every earlier entry is
strictly farther, no later entry is nearer) and that distance is below `1e7`, then
`hyenergy(p, i) = pair.f * hypairpot(p[i], p[m], sqrt(d))`: no other entry contributes. -/
theorem hyenergy_nearest_only (sqrt : ℚ → ℚ) (s : int_hydrophobic) (p : List particle)
    (i : Int) (a : particle) (front back : List Nat) (m : Nat)
    (hi : index p i = some a) (hnh : a.hydrophobic = false)
    (hhy : s.hy = front ++ m :: back)
    (hseg : ∀ h ∈ s.hy, h ≤ s.end_of_protein_one)
    (hval : ∀ h ∈ s.hy, h < p.length)
    (hfirst : ∀ h ∈ front,
      a.pos.sqdist (pat p (m : Int)).pos < a.pos.sqdist (pat p (h : Int)).pos)
    (hmin : ∀ h ∈ back,
      a.pos.sqdist (pat p (m : Int)).pos ≤ a.pos.sqdist (pat p (h : Int)).pos)
    (hlt : a.pos.sqdist (pat p (m : Int)).pos < 10000000) :
    int_hydrophobic.hyenergy_int sqrt s p i
      = some (s.pair.f
          * s.pair.hypairpot a (pat p (m : Int)) (sqrt (a.pos.sqdist (pat p (m : Int)).pos))) := by
  have hmem : m ∈ s.hy := by rw [hhy]; simp
  have hfront : ∀ h ∈ front, h ∈ s.hy := fun h hh => by rw [hhy]; simp [hh]
  have hback : ∀ h ∈ back, h ∈ s.hy := fun h hh => by rw [hhy]; simp [hh]
  have hidx : index p (m : Int) = some (pat p (m : Int)) :=
    index_eq p (by omega) (by have := hval m hmem; omega)
  obtain ⟨st1, e1, hc1, hu1⟩ := scan_stays_above sqrt s p a
    (a.pos.sqdist (pat p (m : Int)).pos) front (hystate.mk 0 10000000 none)
    (fun h hh => ⟨hseg h (hfront h hh), hval h (hfront h hh), hfirst h hh⟩) hlt
  have e2 := hystep_first_segment sqrt s p a m st1 (hseg m hmem) (hval m hmem)
  rw [if_pos hc1] at e2
  have e3 := scan_keeps_state sqrt s p a back
    (hystate.mk st1.u (a.pos.sqdist (pat p (m : Int)).pos) (some m))
    (fun h hh => ⟨hseg h (hback h hh), hval h (hback h hh), hmin h hh⟩)
  unfold int_hydrophobic.hyenergy_int
  rw [hi]
  simp only [Option.bind_eq_bind, Option.some_bind, hnh, Bool.false_eq_true, if_false]
  have hloop := forLoop_over_list (int_hydrophobic.hystep sqrt s p a) s.hy
    (hystate.mk 0 10000000 none)
  simp only [Option.bind_eq_bind] at hloop
  have hu : st1.u = 0 := hu1
  rw [hu] at e2 e3
  rw [hloop, hhy, List.foldlM_append, e1]
  simp only [Option.bind_eq_bind, Option.some_bind, List.foldlM_cons, e2, e3, hidx,
    Option.pure_def, zero_add]

theorem hyenergy_nearest_only_witness :
    index threeHydrophobicAndIon 3 = some (onAxis 0 1 1 false)
      ∧ (onAxis 0 1 1 false).hydrophobic = false
      ∧ int_hydrophobic.hyenergy_int sqrtExact ⟨someHyPotential, [2, 0, 1], [3], 5⟩
            threeHydrophobicAndIon 3
          = some (someHyPotential.f
              * someHyPotential.hypairpot (onAxis 0 1 1 false)
                  (pat threeHydrophobicAndIon ((0 : Nat) : Int))
                  (sqrtExact ((onAxis 0 1 1 false).pos.sqdist
                    (pat threeHydrophobicAndIon ((0 : Nat) : Int)).pos))) :=
  ⟨by decide!, by decide!,
    hyenergy_nearest_only sqrtExact ⟨someHyPotential, [2, 0, 1], [3], 5⟩
      threeHydrophobicAndIon 3 (onAxis 0 1 1 false) [2] [1] 0
      (by decide!) (by decide!) rfl (by decide) (by decide)
      (by decide!) (by decide!) (by decide!)⟩

/-- C17: the two-segment search with a second segment of two entries. With
`hy = [0, 1, 2]` and `end_of_protein_one = 0` the first segment is `{0}` (distance 1)
and the second is `{1, 2}` (distances 2 and 3). The test `hy[j] > end_of_protein_one`
holds at both entries of the second segment, so the stored term is overwritten and the
minimum reset at each of them: the result is `pair.f * (hypairpot(p[i], p[1], 2)
+ hypairpot(p[i], p[2], 3)) = 640`, not the sum over the nearest of each segment,
`pair.f * (hypairpot(p[i], p[0], 1) + hypairpot(p[i], p[1], 2)) = 42`. -/
theorem second_segment_search_restarts_at_each_entry :
    int_hydrophobic.hyenergy_int sqrtExact ⟨someHyPotential, [0, 1, 2], [3], 0⟩
          threeHydrophobicAndIon 3 = some 640
      ∧ someHyPotential.f
          * (someHyPotential.hypairpot (pat threeHydrophobicAndIon 3)
                (pat threeHydrophobicAndIon 1) 2
              + someHyPotential.hypairpot (pat threeHydrophobicAndIon 3)
                (pat threeHydrophobicAndIon 2) 3) = 640
      ∧ someHyPotential.f
          * (someHyPotential.hypairpot (pat threeHydrophobicAndIon 3)
                (pat threeHydrophobicAndIon 0) 1
              + someHyPotential.hypairpot (pat threeHydrophobicAndIon 3)
                (pat threeHydrophobicAndIon 1) 2) = 42 := by
  decide!

/-! ## The overrides of the hydrophobic extension -/

theorem fold_of_terms (sqrt : ℚ → ℚ) (s : int_hydrophobic) (p : List particle)
    (c : Nat → ℚ) :
    ∀ (l : List Nat) (u : ℚ),
      (∀ i ∈ l, int_hydrophobic.hyenergy_int sqrt s p (i : Int) = some (c i)) →
      l.foldlM (fun u k => do
          let e ← int_hydrophobic.hyenergy_int sqrt s p (k : Int)
          pure (u + e)) u
        = some (u + (l.map c).sum) := by
  intro l
  induction l with
  | nil => intro u _; simp
  | cons x l ih =>
    intro u hall
    rw [List.foldlM_cons, hall x (List.mem_cons_self x l)]
    simp only [Option.bind_eq_bind, Option.some_bind, Option.pure_def]
    have h := ih (u + c x) (fun i hi => hall i (List.mem_cons_of_mem x hi))
    simp only [Option.bind_eq_bind, Option.pure_def] at h
    rw [h, List.map_cons, List.sum_cons, add_assoc]

theorem hyenergy_of_terms (sqrt : ℚ → ℚ) (s : int_hydrophobic) (p : List particle)
    (c : Nat → ℚ)
    (hc : ∀ i ∈ s.pa, int_hydrophobic.hyenergy_int sqrt s p (i : Int) = some (c i)) :
    int_hydrophobic.hyenergy sqrt s p = some ((s.pa.map c).sum) := by
  unfold int_hydrophobic.hyenergy
  rw [forLoop_over_list (fun k u => do
      let e ← int_hydrophobic.hyenergy_int sqrt s p (k : Int)
      pure (u + e)) s.pa 0, fold_of_terms sqrt s p c s.pa 0 hc, zero_add]

theorem hyenergy_int_scale (sqrt : ℚ → ℚ) (s : int_hydrophobic) (p : List particle)
    (i : Int) (f : ℚ) :
    int_hydrophobic.hyenergy_int sqrt
        ⟨⟨⟨f, s.pair.pairpot⟩, s.pair.hypairpot⟩, s.hy, s.pa, s.end_of_protein_one⟩ p i
      = (int_hydrophobic.hyenergy_int sqrt
          ⟨⟨⟨1, s.pair.pairpot⟩, s.pair.hypairpot⟩, s.hy, s.pa, s.end_of_protein_one⟩ p i).map
          (fun w => f * w) := by
  unfold int_hydrophobic.hyenergy_int
  cases index p i with
  | none => rfl
  | some a =>
    simp only [Option.bind_eq_bind, Option.some_bind]
    by_cases hh : a.hydrophobic = true
    · simp [hh]
    · rw [if_neg hh, if_neg hh]
      have hl : forLoop 0 (s.hy.length : Int) (fun j st => (index_us s.hy j).bind fun h =>
            int_hydrophobic.hystep sqrt
              ⟨⟨⟨f, s.pair.pairpot⟩, s.pair.hypairpot⟩, s.hy, s.pa, s.end_of_protein_one⟩
              p a h st) (hystate.mk 0 10000000 none)
          = forLoop 0 (s.hy.length : Int) (fun j st => (index_us s.hy j).bind fun h =>
            int_hydrophobic.hystep sqrt
              ⟨⟨⟨1, s.pair.pairpot⟩, s.pair.hypairpot⟩, s.hy, s.pa, s.end_of_protein_one⟩
              p a h st) (hystate.mk 0 10000000 none) := rfl
      rw [hl]
      cases forLoop 0 (s.hy.length : Int) (fun j st => (index_us s.hy j).bind fun h =>
            int_hydrophobic.hystep sqrt
              ⟨⟨⟨1, s.pair.pairpot⟩, s.pair.hypairpot⟩, s.hy, s.pa, s.end_of_protein_one⟩
              p a h st) (hystate.mk 0 10000000 none) with
      | none => rfl
      | some st =>
        simp only [Option.some_bind]
        cases st.hymin with
        | none => rfl
        | some m =>
          simp only [Option.some_bind]
          cases index p (m : Int) with
          | none => rfl
          | some b => simp

/-- C18: let `c i` be the value of `hyenergy(p, i)` for every index `i` of the probe list
and `C` the sum of `c` over the probe list. Then `hyenergy(p) = C`, and each override
is its base-engine counterpart plus `C`: `energy(p)`, `energy(p, i)` and `energy(p, g)`.
A probe that is itself hydrophobic has `hyenergy(p, i) = 0`, and `hyenergy(p, i)` is
`pair.f` times its value at scale factor 1: the factor enters each term once. -/
theorem hydrophobic_overrides_add_correction (sqrt : ℚ → ℚ) (s : int_hydrophobic)
    (p : List particle) (c : Nat → ℚ)
    (hc : ∀ i ∈ s.pa, int_hydrophobic.hyenergy_int sqrt s p (i : Int) = some (c i)) :
    int_hydrophobic.hyenergy sqrt s p = some ((s.pa.map c).sum)
      ∧ (∀ e : ℚ, interaction.energy s.pair.topairpotential p = some e →
          int_hydrophobic.energy sqrt s p = some (e + (s.pa.map c).sum))
      ∧ (∀ (i : Int) (e : ℚ), interaction.energy_int s.pair.topairpotential p i = some e →
          int_hydrophobic.energy_int sqrt s p i = some (e + (s.pa.map c).sum))
      ∧ (∀ (g : group) (e : ℚ), interaction.energy_group s.pair.topairpotential p g = some e →
          int_hydrophobic.energy_group sqrt s p g = some (e + (s.pa.map c).sum))
      ∧ (∀ (i : Int) (a : particle), index p i = some a → a.hydrophobic = true →
          int_hydrophobic.hyenergy_int sqrt s p i = some 0)
      ∧ (∀ (i : Int) (f : ℚ),
          int_hydrophobic.hyenergy_int sqrt
              ⟨⟨⟨f, s.pair.pairpot⟩, s.pair.hypairpot⟩, s.hy, s.pa, s.end_of_protein_one⟩ p i
            = (int_hydrophobic.hyenergy_int sqrt
                ⟨⟨⟨1, s.pair.pairpot⟩, s.pair.hypairpot⟩, s.hy, s.pa, s.end_of_protein_one⟩
                p i).map (fun w => f * w)) := by
  have hC := hyenergy_of_terms sqrt s p c hc
  refine ⟨hC, ?_, ?_, ?_, ?_, ?_⟩
  · intro e he
    simp [int_hydrophobic.energy, he, hC]
  · intro i e he
    simp [int_hydrophobic.energy_int, he, hC]
  · intro g e he
    simp [int_hydrophobic.energy_group, he, hC]
  · intro i a hi hh
    simp [int_hydrophobic.hyenergy_int, hi, hh]
  · intro i f
    exact hyenergy_int_scale sqrt s p i f

theorem hydrophobic_overrides_add_correction_witness :
    (∀ i ∈ (int_hydrophobic.mk someHyPotential [0, 1, 2] [3] 5).pa,
        int_hydrophobic.hyenergy_int sqrtExact ⟨someHyPotential, [0, 1, 2], [3], 5⟩
          threeHydrophobicAndIon (i : Int) = some ((fun _ => (2 : ℚ)) i))
      ∧ interaction.energy someHyPotential.topairpotential threeHydrophobicAndIon = some 2442
      ∧ int_hydrophobic.energy sqrtExact ⟨someHyPotential, [0, 1, 2], [3], 5⟩
            threeHydrophobicAndIon
          = some (2442 + ((int_hydrophobic.mk someHyPotential [0, 1, 2] [3] 5).pa.map
              (fun _ => (2 : ℚ))).sum) :=
  ⟨fun i hi => by
      have e : i = 3 := by simpa using hi
      subst e
      decide!,
    by decide!,
    (hydrophobic_overrides_add_correction sqrtExact ⟨someHyPotential, [0, 1, 2], [3], 5⟩
      threeHydrophobicAndIon (fun _ => (2 : ℚ))
      (fun i hi => by
        have e : i = 3 := by simpa using hi
        subst e
        decide!)).2.1 2442 (by decide!)⟩

/-! ## A segment without hydrophobic particle -/

theorem hyenergy_int_empty_list (sqrt : ℚ → ℚ) (s : int_hydrophobic) (p : List particle)
    (i : Int) (a : particle) (hi : index p i = some a) (hnh : a.hydrophobic = false)
    (hhy : s.hy = []) :
    int_hydrophobic.hyenergy_int sqrt s p i = none := by
  unfold int_hydrophobic.hyenergy_int
  rw [hi, hhy]
  simp [hnh, forLoop, iterate]

theorem hyenergy_int_empty_first_segment (sqrt : ℚ → ℚ) (s : int_hydrophobic)
    (p : List particle) (i : Int) (a : particle) (h : Nat) (rest : List Nat)
    (hi : index p i = some a) (hnh : a.hydrophobic = false)
    (hhy : s.hy = h :: rest) (hbeyond : h > s.end_of_protein_one) :
    int_hydrophobic.hyenergy_int sqrt s p i = none := by
  have hloop := forLoop_over_list (int_hydrophobic.hystep sqrt s p a) s.hy
    (hystate.mk 0 10000000 none)
  simp only [Option.bind_eq_bind] at hloop
  have hstep : int_hydrophobic.hystep sqrt s p a h (hystate.mk 0 10000000 none) = none := by
    unfold int_hydrophobic.hystep
    rw [if_pos hbeyond]
    rfl
  unfold int_hydrophobic.hyenergy_int
  rw [hi]
  simp only [Option.bind_eq_bind, Option.some_bind, hnh, Bool.false_eq_true, if_false]
  rw [hloop, hhy, List.foldlM_cons, hstep]
  rfl

/-- C21: `hyenergy(p, i)` for a non-hydrophobic probe when a segment holds no hydrophobic
particle. With an empty hydrophobic list the loop does not run and the return statement
reads `p[hymin]` with `hymin` never assigned; with a first entry beyond
`end_of_protein_one` (here `hy = [1]`, `end_of_protein_one = 0`) the segment switch reads
`p[hymin]` at the first iteration, also before any assignment. In both cases the function
has no defined result instead of a zero contribution for that segment. -/
theorem hyenergy_reads_hymin_unassigned :
    int_hydrophobic.hyenergy_int sqrtExact ⟨someHyPotential, [], [0], 10000000⟩
          [onAxis 0 1 1 false] 0 = none
      ∧ int_hydrophobic.hyenergy_int sqrtExact ⟨someHyPotential, [1], [0], 0⟩
          [onAxis 0 1 1 false, onAxis 1 1 0 true] 0 = none :=
  ⟨by decide!, by decide!⟩

/-! ## The energy between the groups of a list -/

theorem index_group_append (front back : List group) (x : group) :
    index_group (front ++ x :: back) (front.length : Int) = some x := by
  have h : (front ++ x :: back)[front.length]? = some x := by
    rw [List.getElem?_append_right (le_refl _)]
    simp
  simp [index_group, h]

theorem iterate_over_groups {σ : Type} (step : group → σ → Option σ) :
    ∀ (l front : List group) (s : σ),
      iterate (fun j st => do
          let g ← index_group (front ++ l) j
          step g st) l.length (front.length : Int) s
        = l.foldlM (fun st g => step g st) s := by
  intro l
  induction l with
  | nil => intro front s; simp [iterate]
  | cons x l ih =>
    intro front s
    have e : front ++ x :: l = (front ++ [x]) ++ l := by simp
    have e2 : ((front.length : Nat) : Int) + 1 = (((front ++ [x]).length : Nat) : Int) := by
      simp
    rw [List.length_cons, iterate, index_group_append, List.foldlM_cons]
    simp only [Option.bind_eq_bind, Option.some_bind]
    cases step x s with
    | none => rfl
    | some s1 =>
      simp only [Option.some_bind]
      rw [e, e2]
      exact ih (front ++ [x]) s1

theorem forLoop_over_groups {σ : Type} (step : group → σ → Option σ) (l : List group)
    (s : σ) :
    forLoop 0 (l.length : Int) (fun j st => do
        let g ← index_group l j
        step g st) s
      = l.foldlM (fun st g => step g st) s := by
  have h := iterate_over_groups step l [] s
  simp only [List.nil_append, List.length_nil, Nat.cast_zero] at h
  unfold forLoop
  simpa using h

theorem tiles_le : ∀ (gs : List group) (a n : Int), tiles gs a n = true → a ≤ n := by
  intro gs
  induction gs with
  | nil =>
    intro a n h
    simp only [tiles, decide_eq_true_eq] at h
    omega
  | cons g rest ih =>
    intro a n h
    simp only [tiles, Bool.and_eq_true, decide_eq_true_eq] at h
    have := ih (g.end_ + 1) n h.2
    omega

theorem group_against_later (pair : pairpotential) (p : List particle) (g : group) (u : ℚ)
    (h0 : 0 ≤ g.beg) :
    forLoop g.beg (g.end_ + 1) (fun i u =>
        forLoop (g.end_ + 1) (p.length : Int) (fun s u => addpot pair p i s u) u) u
      = some (u + ∑ i ∈ Finset.Ico g.beg (g.end_ + 1),
          ∑ j ∈ Finset.Ico (g.end_ + 1) (p.length : Int),
            pair.pairpot (pat p i) (pat p j)) := by
  by_cases h2 : g.end_ < p.length
  · apply forLoop_sum _ (fun i => ∑ j ∈ Finset.Ico (g.end_ + 1) (p.length : Int),
        pair.pairpot (pat p i) (pat p j))
    intro i hi0 hi1 v
    exact forLoop_sum _ (fun j => pair.pairpot (pat p i) (pat p j)) (g.end_ + 1) p.length v
      (fun j hj0 hj1 w => addpot_eq pair p w (by omega) (by omega) (by omega) (by omega))
  · apply forLoop_sum _ (fun i => ∑ j ∈ Finset.Ico (g.end_ + 1) (p.length : Int),
        pair.pairpot (pat p i) (pat p j))
    intro i hi0 hi1 v
    exact forLoop_sum _ (fun j => pair.pairpot (pat p i) (pat p j)) (g.end_ + 1) p.length v
      (fun j hj0 hj1 w => absurd hj1 (by omega))

theorem fold_over_tiling (pair : pairpotential) (p : List particle) :
    ∀ (gs : List group) (a : Int) (u : ℚ), 0 ≤ a → tiles gs a p.length = true →
      ∃ (x : ℚ) (vs : List ℚ),
        gs.foldlM (fun u g => forLoop g.beg (g.end_ + 1) (fun i u =>
            forLoop (g.end_ + 1) (p.length : Int) (fun s u => addpot pair p i s u) u) u) u
          = some (u + x)
        ∧ List.Forall₂ (fun g v => interaction.internal pair p g = some v) gs vs
        ∧ pair.f * ∑ i ∈ Finset.Ico a (p.length : Int),
            ∑ j ∈ Finset.Ico (i + 1) (p.length : Int), pair.pairpot (pat p i) (pat p j)
          = pair.f * x + vs.sum := by
  intro gs
  induction gs with
  | nil =>
    intro a u _ ht
    simp only [tiles, decide_eq_true_eq] at ht
    refine ⟨0, [], by simp, List.Forall₂.nil, ?_⟩
    rw [ht]
    simp
  | cons g rest ih =>
    intro a u ha ht
    simp only [tiles, Bool.and_eq_true, decide_eq_true_eq] at ht
    obtain ⟨⟨hbeg, hle⟩, hrest⟩ := ht
    have hend := tiles_le rest (g.end_ + 1) p.length hrest
    have h0 : 0 ≤ g.beg := by omega
    have h2 : g.end_ < p.length := by omega
    obtain ⟨x1, vs1, hf, hv, hs⟩ := ih (g.end_ + 1)
      (u + ∑ i ∈ Finset.Ico g.beg (g.end_ + 1),
          ∑ j ∈ Finset.Ico (g.end_ + 1) (p.length : Int),
            pair.pairpot (pat p i) (pat p j)) (by omega) hrest
    have hint := interaction.internal_loops pair p g h0 h2
    have q := sum_pairs_outer_pred (fun i j => pair.pairpot (pat p i) (pat p j))
      g.beg (g.end_ + 1)
    have e2 : g.end_ + 1 - 1 = g.end_ := by ring
    rw [e2] at q
    try simp only at q
    rw [q] at hint
    have split := sum_pairs_split (fun i j => pair.pairpot (pat p i) (pat p j))
      (show g.beg ≤ g.end_ + 1 by omega) hend
    try simp only at split
    refine ⟨(∑ i ∈ Finset.Ico g.beg (g.end_ + 1),
          ∑ j ∈ Finset.Ico (g.end_ + 1) (p.length : Int),
            pair.pairpot (pat p i) (pat p j)) + x1, _ :: vs1, ?_, List.Forall₂.cons hint hv, ?_⟩
    · rw [List.foldlM_cons, group_against_later pair p g u h0]
      simp only [Option.bind_eq_bind, Option.some_bind]
      rw [hf, add_assoc]
    · rw [← hbeg, split, List.sum_cons]
      linarith

/-- C22: for every pair potential, symmetric or not, and every list of groups that tile
the collection in order (`g_0.beg = 0`, `g_{l+1}.beg = g_l.end + 1`, the last `end` is
`p.size() - 1`, every `beg ≤ end`), the group-list energy, the system energy and every
`internal(p, g_l)` are defined and `energy(p, groups) = energy(p) - Σ_l internal(p, g_l)`. -/
theorem energy_groups_is_energy_minus_internal (pair : pairpotential) (p : List particle)
    (gs : List group) (ht : tiles gs 0 p.length = true) :
    ∃ (e x : ℚ) (vs : List ℚ),
      interaction.energy pair p = some e
        ∧ interaction.energy_groups pair p gs = some x
        ∧ List.Forall₂ (fun g v => interaction.internal pair p g = some v) gs vs
        ∧ x = e - vs.sum := by
  obtain ⟨x, vs, hf, hv, hs⟩ := fold_over_tiling pair p gs 0 0 le_rfl ht
  have he := interaction.energy_loops pair p
  have q := sum_pairs_outer_pred (fun i j => pair.pairpot (pat p i) (pat p j)) 0 p.length
  try simp only at q
  rw [q] at he
  have hloop := forLoop_over_groups (fun (g : group) (u : ℚ) =>
      forLoop g.beg (g.end_ + 1) (fun i u =>
        forLoop (g.end_ + 1) (p.length : Int) (fun s u => addpot pair p i s u) u) u) gs 0
  refine ⟨_, pair.f * x, vs, he, ?_, hv, by linarith⟩
  unfold interaction.energy_groups
  simp only [Option.bind_eq_bind] at hloop ⊢
  rw [hloop, hf]
  simp

theorem energy_groups_is_energy_minus_internal_witness :
    tiles [⟨0, 1⟩, ⟨2, 2⟩, ⟨3, 3⟩] 0 fourIons.length = true
      ∧ ∃ (e x : ℚ) (vs : List ℚ),
          interaction.energy lopsided fourIons = some e
            ∧ interaction.energy_groups lopsided fourIons [⟨0, 1⟩, ⟨2, 2⟩, ⟨3, 3⟩] = some x
            ∧ List.Forall₂ (fun g v => interaction.internal lopsided fourIons g = some v)
                [⟨0, 1⟩, ⟨2, 2⟩, ⟨3, 3⟩] vs
            ∧ x = e - vs.sum :=
  ⟨by decide,
    energy_groups_is_energy_minus_internal lopsided fourIons [⟨0, 1⟩, ⟨2, 2⟩, ⟨3, 3⟩]
      (by decide)⟩

/-! ## The Debye-Hückel configuration -/

theorem construct_c {K : Type} [LinearOrderedField K] (sqrt : K → K) (lB pi Nav : K)
    (cfg : inputfile K) :
    (Potential.debyehuckel.construct sqrt lB pi Nav cfg).c
      = 8 * lB * pi * Nav / 1000000000000000000000000000 := rfl

theorem construct_k {K : Type} [LinearOrderedField K] (sqrt : K → K) (lB pi Nav : K)
    (cfg : inputfile K) :
    (Potential.debyehuckel.construct sqrt lB pi Nav cfg).k
      = -(if sqrt (cfg.getflt ("dh_ionicstrength") 0
              * (Potential.debyehuckel.construct sqrt lB pi Nav cfg).c) < 1 / 10000000000
          then 1 / cfg.getflt ("dh_debyelength") 10000000000
          else sqrt (cfg.getflt ("dh_ionicstrength") 0
              * (Potential.debyehuckel.construct sqrt lB pi Nav cfg).c)) := by
  have e : (1 : K) / (1 / 10000000000) = 10000000000 := by norm_num
  simp only [Potential.debyehuckel.construct, e]

/-- C23: Debye-Hückel configuration round trip, over the reals with the real square
root. Let `dh` be the constructed object with `c > 0` and `I` the configured ionic
strength (0 when absent). If `sqrt(I*c) ≥ 1e-10` then `ionic_strength()` returns `I`,
`debye_length()` returns `1/sqrt(I*c)`, the stored `k` is negative and `debye_length()`
is positive. Otherwise `debye_length()` returns the configured `dh_debyelength`, which
is `1e10` when the key is absent, and for a positive configured length the stored `k`
is negative and `debye_length()` is positive. -/
theorem debyehuckel_round_trip (lB pi Nav : ℝ) (cfg : inputfile ℝ)
    (dh : Potential.debyehuckel ℝ) (I : ℝ)
    (hdh : dh = Potential.debyehuckel.construct Real.sqrt lB pi Nav cfg)
    (hI : I = cfg.getflt ("dh_ionicstrength") 0)
    (hc : 0 < dh.c) :
    (1 / 10000000000 ≤ Real.sqrt (I * dh.c) →
        dh.ionic_strength = I ∧ dh.debye_length = 1 / Real.sqrt (I * dh.c)
          ∧ dh.k < 0 ∧ 0 < dh.debye_length)
      ∧ (Real.sqrt (I * dh.c) < 1 / 10000000000 →
          dh.debye_length = cfg.getflt ("dh_debyelength") 10000000000
            ∧ (0 < cfg.getflt ("dh_debyelength") 10000000000 →
                dh.k < 0 ∧ 0 < dh.debye_length))
      ∧ (cfg.entries.lookup ("dh_debyelength") = none →
          cfg.getflt ("dh_debyelength") 10000000000 = 10000000000) := by
  have hk := construct_k Real.sqrt lB pi Nav cfg
  rw [← hdh, ← hI] at hk
  have hcne : dh.c ≠ 0 := ne_of_gt hc
  refine ⟨?_, ?_, ?_⟩
  · intro hge
    have hpos : 0 < Real.sqrt (I * dh.c) := lt_of_lt_of_le (by norm_num) hge
    have hx : 0 ≤ I * dh.c := le_of_lt (Real.sqrt_pos.mp hpos)
    have hsq : Real.sqrt (I * dh.c) * Real.sqrt (I * dh.c) = I * dh.c :=
      Real.mul_self_sqrt hx
    rw [if_neg (not_lt.mpr hge)] at hk
    have hdl : dh.debye_length = 1 / Real.sqrt (I * dh.c) := by
      unfold Potential.debyehuckel.debye_length
      rw [hk, neg_div_neg_eq]
    refine ⟨?_, hdl, ?_, ?_⟩
    · unfold Potential.debyehuckel.ionic_strength
      rw [hk, neg_mul_neg, hsq]
      field_simp
    · rw [hk]
      linarith
    · rw [hdl]
      positivity
  · intro hlt
    rw [if_pos hlt] at hk
    have hdl : dh.debye_length = cfg.getflt ("dh_debyelength") 10000000000 := by
      unfold Potential.debyehuckel.debye_length
      rw [hk, neg_div_neg_eq, one_div_one_div]
    refine ⟨hdl, ?_⟩
    intro hD
    constructor
    · rw [hk]
      have : 0 < 1 / cfg.getflt ("dh_debyelength") 10000000000 := by positivity
      linarith
    · rw [hdl]
      exact hD
  · intro habs
    simp [inputfile.getflt, habs]

theorem salt_c_pos :
    0 < (Potential.debyehuckel.construct Real.sqrt 7 Real.pi 602200000000000000000000
      (saltConfig ℝ)).c := by
  rw [construct_c]
  positivity

theorem salt_root_large :
    1 / 10000000000 ≤ Real.sqrt (1 / 10
      * (Potential.debyehuckel.construct Real.sqrt 7 Real.pi 602200000000000000000000
          (saltConfig ℝ)).c) := by
  rw [construct_c]
  apply Real.le_sqrt_of_sq_le
  have h := Real.pi_gt_three
  norm_num
  linarith

theorem lengthConfig_no_salt :
    (0 : ℝ) = (lengthConfig ℝ).getflt ("dh_ionicstrength") 0 := by
  have h : ("dh_ionicstrength" == "dh_debyelength") = false := by decide
  simp [inputfile.getflt, lengthConfig, List.lookup, h]

theorem debyehuckel_round_trip_witness :
    0 < (Potential.debyehuckel.construct Real.sqrt 7 Real.pi 602200000000000000000000
          (saltConfig ℝ)).c
      ∧ (Potential.debyehuckel.construct Real.sqrt 7 Real.pi 602200000000000000000000
          (saltConfig ℝ)).ionic_strength = 1 / 10
      ∧ (Potential.debyehuckel.construct Real.sqrt 7 Real.pi 602200000000000000000000
          (saltConfig ℝ)).k < 0
      ∧ 0 < (Potential.debyehuckel.construct Real.sqrt 7 Real.pi 602200000000000000000000
          (lengthConfig ℝ)).c
      ∧ (Potential.debyehuckel.construct Real.sqrt 7 Real.pi 602200000000000000000000
          (lengthConfig ℝ)).debye_length
        = (lengthConfig ℝ).getflt ("dh_debyelength") 10000000000 :=
  ⟨salt_c_pos,
    ((debyehuckel_round_trip 7 Real.pi 602200000000000000000000 (saltConfig ℝ) _ (1 / 10) rfl
      (by simp [inputfile.getflt, saltConfig]) salt_c_pos).1 salt_root_large).1,
    ((debyehuckel_round_trip 7 Real.pi 602200000000000000000000 (saltConfig ℝ) _ (1 / 10) rfl
      (by simp [inputfile.getflt, saltConfig]) salt_c_pos).1 salt_root_large).2.2.1,
    by rw [construct_c]; positivity,
    ((debyehuckel_round_trip 7 Real.pi 602200000000000000000000 (lengthConfig ℝ) _ 0 rfl
      lengthConfig_no_salt (by rw [construct_c]; positivity)).2.1
      (by simp)).1⟩

/-! ## The shared inner counter of the parallel regions -/

/-- C4: `energy(p, g)` as built with OpenMP, for three particles of charge 1, 2, 3, the
group `{1, 2}` and `pair.f = 2`, one outer iteration per thread. When thread 1 has
assigned `j = 0` and thread 0 then runs to its end, leaving the shared `j` at 3,
thread 1 finds its loop tests false and adds nothing: the result is 4. With the
threads one after the other the result is 10, which is `pair.f` times the sum over
`i` inside and `j` outside the group. -/
theorem energy_group_races_on_shared_counter :
    interaction.energy_group_omp (overtaken 10 5) 2 chargeProduct threeIons (group.mk 1 2)
        = some 4
      ∧ interaction.energy_group_omp (oneAfterTheOther 10 10) 2 chargeProduct threeIons
          (group.mk 1 2) = some 10
      ∧ chargeProduct.f
          * (chargeProduct.pairpot (pat threeIons 1) (pat threeIons 0)
            + chargeProduct.pairpot (pat threeIons 2) (pat threeIons 0)) = 10 := by
  decide!

/-- C7: `energy(p, g1, g2)` as built with OpenMP, for four particles of charge 1, 2, 3,
4, `g1 = {0, 1}`, `g2 = {2, 3}` and `pair.f = 2`, one outer iteration per thread. When
thread 1 has assigned `j = 2` and thread 0 then runs to its end, leaving the shared
`j` at 4, thread 1 finds its loop test false and adds nothing: the result is 14. With
the threads one after the other the result is 42, which is `pair.f` times the full
cross sum. -/
theorem energy_group_group_races_on_shared_counter :
    interaction.energy_group_group_omp (overtaken 11 3) 1 chargeProduct fourIons
        (group.mk 0 1) (group.mk 2 3) = some 14
      ∧ interaction.energy_group_group_omp (oneAfterTheOther 11 11) 1 chargeProduct fourIons
          (group.mk 0 1) (group.mk 2 3) = some 42
      ∧ chargeProduct.f
          * (chargeProduct.pairpot (pat fourIons 0) (pat fourIons 2)
            + chargeProduct.pairpot (pat fourIons 0) (pat fourIons 3)
            + chargeProduct.pairpot (pat fourIons 1) (pat fourIons 2)
            + chargeProduct.pairpot (pat fourIons 1) (pat fourIons 3)) = 42 := by
  decide!

/-- C1: the decomposition at three particles of charge 1, 2, 3 and the group `{1, 2}`,
with `energy(p, G)` as built with OpenMP under the interleaving of
`energy_group_races_on_shared_counter`: `energy(p) = 22`, `internal(p, G) = 12`,
`energy(p, G) = 4` and `energy(p') = 0`, and `22 ≠ 12 + 4 + 0`. -/
theorem decomposition_fails_under_race :
    (∀ a b, chargeProduct.pairpot a b = chargeProduct.pairpot b a)
      ∧ interaction.energy chargeProduct threeIons = some 22
      ∧ interaction.internal chargeProduct threeIons (group.mk 1 2) = some 12
      ∧ interaction.energy_group_omp (overtaken 10 5) 2 chargeProduct threeIons
          (group.mk 1 2) = some 4
      ∧ interaction.energy chargeProduct
          (threeIons.take (group.mk 1 2).beg.toNat
            ++ threeIons.drop ((group.mk 1 2).end_ + 1).toNat) = some 0
      ∧ (22 : ℚ) ≠ 12 + 4 + 0 :=
  ⟨fun a b => mul_comm a.charge b.charge, by decide!, by decide!, by decide!, by decide!,
    by decide!⟩

end Faunus
